import Mathlib

/-!
# Verification of the ATF 5320.23 form-state engine (`src/form.ts`)

A shallow embedding of the bidirectional form-state engine: the DOM snapshot
serializer (`serializeForm`), the deserializer, the URL-fragment codec
(`saveStateToHash` / `loadStateFromHash`), the dependency cascades
(`syncAddress`, `updateQ6m2`, the Q6 "all NO" action), the phone blur
formatter and the validation rule table.

Conventions of the embedding:

* DOM form controls are records of the fields the engine reads (`name`,
  `el.type`, `el.tagName`, `value`, `checked`, `disabled`).
* JavaScript values flowing through JSON are the inductive `JAny`
  (string / boolean / number-lexeme / null / array / object).
* A thrown JavaScript exception is `Except.error` / `Option.none`.
* `String.prototype.toUpperCase` is modelled per character on the ASCII
  range (`jsUpperChar`).
* `btoa` is partial: it rejects any character with code point ≥ 256.
-/

namespace ATF

/-- ASCII model of `String.prototype.toUpperCase` on one character:
`'a'..'z'` map to `'A'..'Z'`, everything else is unchanged. -/
def jsUpperChar (c : Char) : Char :=
  if 97 ≤ c.toNat ∧ c.toNat ≤ 122 then Char.ofNat (c.toNat - 32) else c

/-- `toUpperCase` on a character list. -/
def jsUpperL (cs : List Char) : List Char := cs.map jsUpperChar

/-- `toUpperCase` on a string. -/
def jsUpper (s : String) : String := ⟨jsUpperL s.data⟩

/-- A JavaScript value as produced by `JSON.parse` / consumed by
`JSON.stringify`.  Numbers are kept as their lexeme (the engine never does
arithmetic on snapshot values). -/
inductive JAny where
  | str (s : String)
  | bool (b : Bool)
  | num (lexeme : String)
  | null
  | arr (elems : List JAny)
  | obj (entries : List (String × JAny))

/-- A snapshot: the key-value mapping built by `serializeForm` and consumed
by `deserializeForm` (`data: Record<string, any>` in the source), in key
insertion order. -/
abbrev Snapshot := List (String × JAny)

/-- JavaScript object property assignment `data[k] = v`: overwrites in place
if the key exists, otherwise appends (insertion order is preserved). -/
def setKey (data : Snapshot) (k : String) (v : JAny) : Snapshot :=
  if data.any (fun p => p.1 = k) then
    data.map (fun p => if p.1 = k then (k, v) else p)
  else data ++ [(k, v)]

/-- A DOM form control, restricted to the fields the engine reads:
`el.name`, `el.type` (`etype`), `el.tagName` (`tag`), `el.value`,
`el.checked`, `el.disabled`. -/
structure Control where
  name : String
  etype : String
  tag : String
  value : String
  checked : Bool
  disabled : Bool
deriving DecidableEq

/-- The form is its control collection (`form.elements`) in document order. -/
abbrev Form := List Control

/-- `form.elements.namedItem(n)`: all controls sharing the name `n`, in
document order.  An empty result models `namedItem` returning `null`; a
one-element result models it returning the lone element; a longer result
models the `RadioNodeList`. -/
def namedItem (form : Form) (n : String) : List Control :=
  form.filter (fun c => c.name = n)

/-- `name.replace("_other", "")`: JavaScript `String.replace` with a string
pattern replaces only the first occurrence. -/
def jsReplaceFirst (s pat : String) : String :=
  match s.splitOn pat with
  | [] => s
  | [x] => x
  | x :: rest => x ++ String.intercalate pat rest

/-- The signature collaborator as seen by `serializeForm`:
whether `signatureManager` is non-null, what `isEmpty()` returns, and the
`serialize()` payload (`""` models a `null`/falsy payload). -/
structure SigState where
  present : Bool
  isEmpty : Bool
  payload : String
deriving DecidableEq

/-- The control-iteration loop of `serializeForm` (src/form.ts lines 37-135):
walks the remaining elements, skipping unnamed and disabled controls,
dispatching on `el.type`, tracking `processedCheckboxGroups` and building
`data` by JavaScript property assignment. -/
def serializeLoop (form : Form) (includeDefaults : Bool) (today : String) :
    List Control → List String → Snapshot → Snapshot
  | [], _, data => data
  | el :: rest, processed, data =>
    if el.name = "" ∨ el.disabled then
      serializeLoop form includeDefaults today rest processed data
    else if el.etype = "checkbox" then
      if el.name ∈ processed then
        serializeLoop form includeDefaults today rest processed data
      else
        match namedItem form el.name with
        | [] => serializeLoop form includeDefaults today rest processed data
        | [cb] =>
          let data' :=
            if el.name = "q3a_sameAs2" then
              if cb.checked = false then setKey data el.name (.bool false)
              else if includeDefaults then setKey data el.name (.bool true)
              else data
            else setKey data el.name (.bool cb.checked)
          serializeLoop form includeDefaults today rest (el.name :: processed) data'
        | cbs =>
          let checkedValues := (cbs.filter (fun c => c.checked)).map (fun c => c.value)
          let data' :=
            if checkedValues.length > 0 then
              setKey data el.name (.arr (checkedValues.map JAny.str))
            else data
          serializeLoop form includeDefaults today rest (el.name :: processed) data'
    else if el.etype = "radio" then
      let data' :=
        if el.checked ∧ el.value ≠ "" then setKey data el.name (.str el.value) else data
      serializeLoop form includeDefaults today rest processed data'
    else if el.etype = "text" ∨ el.etype = "email" ∨ el.etype = "tel" then
      if el.name.endsWith "_other" then
        let baseName := jsReplaceFirst el.name "_other"
        let data' :=
          match namedItem form baseName with
          | [] => data
          | controlsList =>
            match controlsList.find? (fun r => r.value = "OTHER") with
            | some otherControl =>
              if otherControl.checked ∧ el.value ≠ "" then
                setKey data el.name (.str (jsUpper el.value))
              else data
            | none => data
        serializeLoop form includeDefaults today rest processed data'
      else
        let data' :=
          if el.value ≠ "" then setKey data el.name (.str (jsUpper el.value)) else data
        serializeLoop form includeDefaults today rest processed data'
    else if el.etype = "date" then
      let data' :=
        if el.name = "certificationDate" then
          if el.value ≠ "" ∧ el.value ≠ today then setKey data el.name (.str el.value) else data
        else
          if el.value ≠ "" then setKey data el.name (.str el.value) else data
      serializeLoop form includeDefaults today rest processed data'
    else
      let data' :=
        if el.value ≠ "" then
          if el.tag = "TEXTAREA" then setKey data el.name (.str (jsUpper el.value))
          else setKey data el.name (.str el.value)
        else data
      serializeLoop form includeDefaults today rest processed data'

/-- `serializeForm` (src/form.ts lines 18-146) for a present form: the
control loop followed by the signature merge (`data.signature = signature`
when the manager is present, non-empty, and `serialize()` is truthy). -/
def serializeForm (form : Form) (sig : SigState) (today : String)
    (includeDefaults : Bool) : Snapshot :=
  let data := serializeLoop form includeDefaults today form [] []
  if sig.present ∧ sig.isEmpty = false ∧ sig.payload ≠ "" then
    setKey data "signature" (.str sig.payload)
  else data

/-- `serializeForm` including its guard (src/form.ts lines 19-22): when
`document.getElementById("nfa-form")` is `null` it throws
`new Error("Form not found")`, modelled as `Except.error`. -/
def serializeFormTop (doc : Option Form) (sig : SigState) (today : String)
    (includeDefaults : Bool) : Except String Snapshot :=
  match doc with
  | none => .error "Form not found"
  | some form => .ok (serializeForm form sig today includeDefaults)

/-- Outcome of the guard at the top of `init` (src/form.ts lines 151-155). -/
inductive InitOutcome where
  | loggedSkip (msg : String)
  | proceeded
deriving DecidableEq

/-- The `init` guard: a missing form is logged via `console.error` and the
initialization returns without throwing. -/
def initGuard (doc : Option Form) : InitOutcome :=
  match doc with
  | none => .loggedSkip "Form not found"
  | some _ => .proceeded

/-! ## Deserialization (`deserializeForm`, src/form.ts lines 175-224) -/

mutual
/-- JavaScript `ToString` of a snapshot value, as triggered by
`el.value = value` on a non-string. -/
def jsToString : JAny → String
  | .str s => s
  | .bool true => "true"
  | .bool false => "false"
  | .num lexeme => lexeme
  | .null => "null"
  | .arr xs => jsToStringList xs
  | .obj _ => "[object Object]"

/-- `Array.prototype.toString`: elements joined by `","`, with `null`
elements contributing the empty string. -/
def jsToStringList : List JAny → String
  | [] => ""
  | [.null] => ""
  | [x] => jsToString x
  | .null :: xs => "," ++ jsToStringList xs
  | x :: xs => jsToString x ++ "," ++ jsToStringList xs
end

/-- The string actually stored by `el.value = value`:  the `value` IDL
attribute of input/textarea has `LegacyNullToEmptyString`, so `null`
assigns `""`; every other non-string is `ToString`-coerced. -/
def valueAssignString (v : JAny) : String :=
  match v with
  | .null => ""
  | _ => jsToString v

/-- `hay.includes(ndl)` on strings: substring containment. -/
def strHasSub (ndl : List Char) : List Char → Bool
  | [] => ndl.isEmpty
  | c :: t => ndl.isPrefixOf (c :: t) || strHasSub ndl t

/-- Does `value.includes` exist?  Strings and arrays have an `includes`
method; booleans, numbers, `null` and plain objects do not (calling it
throws a `TypeError`). -/
def hasIncludesMethod (v : JAny) : Bool :=
  match v with
  | .str _ => true
  | .arr _ => true
  | _ => false

/-- `value.includes(s)` for a string or array `value`:
`String.prototype.includes` is substring search; `Array.prototype.includes`
uses SameValueZero, which equates the string `s` only with an equal string
element. -/
def jsIncludesB (v : JAny) (s : String) : Bool :=
  match v with
  | .str t => strHasSub s.data t.data
  | .arr xs => xs.any (fun x => match x with | .str t => t = s | _ => false)
  | _ => false

/-- `el.value = w` where `el` is the first control named `k`
(`namedItem` returns the first element, or the `RadioNodeList` whose
index 0 the code takes). -/
def setFirstValue : Form → String → String → Form
  | [], _, _ => []
  | c :: rest, k, w =>
    if c.name = k then { c with value := w } :: rest
    else c :: setFirstValue rest k w

/-- `el.checked = b` on the first control named `k`. -/
def setFirstChecked : Form → String → Bool → Form
  | [], _, _ => []
  | c :: rest, k, b =>
    if c.name = k then { c with checked := b } :: rest
    else c :: setFirstChecked rest k b

/-- `radios.forEach(radio => radio.checked = (radio.value === value))`:
strict equality of a string control value with the snapshot value is true
only for an equal string. -/
def setRadioChecked (form : Form) (k : String) (v : JAny) : Form :=
  form.map (fun c =>
    if c.name = k then
      { c with checked := (match v with | .str t => t = c.value | _ => false) }
    else c)

/-- `checkboxes.forEach(cb => cb.checked = value.includes(cb.value))`. -/
def setGroupChecked (form : Form) (k : String) (v : JAny) : Form :=
  form.map (fun c =>
    if c.name = k then { c with checked := jsIncludesB v c.value } else c)

/-- One iteration of the `for (const key in data)` loop of
`deserializeForm`: `.error` models a TypeError escaping the loop
(`forEach` called on a lone element, or `.includes` called on a value
without that method). -/
def deserializeStep (form : Form) (k : String) (v : JAny) : Except Unit Form :=
  if k = "signature" then .ok form
  else
    match namedItem form k with
    | [] => .ok form
    | el :: others =>
      if el.etype = "radio" then
        match others with
        | [] => .error ()
        | _ => .ok (setRadioChecked form k v)
      else if el.etype = "checkbox" then
        match v with
        | .bool b =>
          match others with
          | [] => .ok (setFirstChecked form k b)
          | _ => .ok form
        | _ =>
          match others with
          | [] => .error ()
          | _ => if hasIncludesMethod v then .ok (setGroupChecked form k v) else .error ()
      else
        let w :=
          match v with
          | .str s =>
            if el.etype = "text" ∨ el.etype = "email" ∨ el.etype = "tel" ∨ el.tag = "TEXTAREA"
            then jsUpper s else s
          | other => valueAssignString other
        .ok (setFirstValue form k w)

/-- `deserializeForm(data)`: iterate the snapshot entries in insertion
order; the `signature` key is routed to the signature collaborator (no
control is touched); a thrown TypeError aborts the whole call. -/
def deserializeForm (form : Form) : Snapshot → Except Unit Form
  | [] => .ok form
  | (k, v) :: rest =>
    match deserializeStep form k v with
    | .error e => .error e
    | .ok form' => deserializeForm form' rest

/-! ## JSON (`JSON.stringify` / `JSON.parse` as used by the hash codec) -/

/-- Opening brace character, kept as a code point. -/
def lbrace : Char := Char.ofNat 123

/-- Closing brace character, kept as a code point. -/
def rbrace : Char := Char.ofNat 125

/-- Lower-case hexadecimal digits, as emitted by `JSON.stringify`'s
`\u00XX` escapes. -/
def hexDigits : List Char :=
  ['0', '1', '2', '3', '4', '5', '6', '7']
    ++ ['8', '9', 'a', 'b', 'c', 'd', 'e', 'f']

/-- The `n`-th hex digit. -/
def hexDig (n : Nat) : Char := hexDigits.getD n '0'

/-- `QuoteJSONString`'s escape of one character: `"` and `\` get a
backslash, the five short escapes `\b \t \n \f \r` cover their control
characters, any other control character becomes `\u00XX`, and everything
else is emitted verbatim. -/
def escapeChar (c : Char) : List Char :=
  if c = '"' then ['\\', '"']
  else if c = '\\' then ['\\', '\\']
  else if c.toNat = 8 then ['\\', 'b']
  else if c.toNat = 9 then ['\\', 't']
  else if c.toNat = 10 then ['\\', 'n']
  else if c.toNat = 12 then ['\\', 'f']
  else if c.toNat = 13 then ['\\', 'r']
  else if c.toNat < 32 then
    ['\\', 'u', '0', '0', hexDig (c.toNat / 16), hexDig (c.toNat % 16)]
  else [c]

/-- Escape a whole character list. -/
def escString (cs : List Char) : List Char := (cs.map escapeChar).flatten

/-- `JSON.stringify` of a string: quoted, escaped. -/
def stringifyStr (s : String) : List Char := '"' :: escString s.data ++ ['"']

mutual
/-- `JSON.stringify` of a value (no indentation argument): the exact
character stream written into the fragment. -/
def stringifyJ : JAny → List Char
  | .str s => stringifyStr s
  | .bool b => if b then ['t', 'r', 'u', 'e'] else ['f', 'a', 'l', 's', 'e']
  | .null => ['n', 'u', 'l', 'l']
  | .num lexeme => lexeme.data
  | .arr xs => '[' :: stringifyArr xs ++ [']']
  | .obj kvs => lbrace :: stringifyMembers kvs ++ [rbrace]

/-- Comma-joined array elements. -/
def stringifyArr : List JAny → List Char
  | [] => []
  | [x] => stringifyJ x
  | x :: xs => stringifyJ x ++ ',' :: stringifyArr xs

/-- Comma-joined `"key":value` members. -/
def stringifyMembers : List (String × JAny) → List Char
  | [] => []
  | [(k, v)] => stringifyStr k ++ ':' :: stringifyJ v
  | (k, v) :: kvs => stringifyStr k ++ ':' :: stringifyJ v ++ ',' :: stringifyMembers kvs
end

/-- JSON insignificant whitespace. -/
def isJsonWs (c : Char) : Bool := c = ' ' || c = '\t' || c = '\n' || c = '\r'

/-- Skip insignificant whitespace. -/
def skipWs (cs : List Char) : List Char := cs.dropWhile isJsonWs

/-- Value of one hexadecimal digit (either case). -/
def hexVal (c : Char) : Option Nat :=
  if '0' ≤ c ∧ c ≤ '9' then some (c.toNat - 48)
  else if 'a' ≤ c ∧ c ≤ 'f' then some (c.toNat - 87)
  else if 'A' ≤ c ∧ c ≤ 'F' then some (c.toNat - 55)
  else none

/-- Parse the body of a JSON string literal (the opening quote already
consumed): returns the decoded characters and the input after the closing
quote.  Unescaped control characters are rejected, as in `JSON.parse`. -/
def parseStringBody : List Char → Option (List Char × List Char)
  | [] => none
  | c :: r =>
    if c = '"' then some ([], r)
    else if c = '\\' then
      match r with
      | [] => none
      | e :: r2 =>
        if e = '"' then (parseStringBody r2).map (fun p => ('"' :: p.1, p.2))
        else if e = '\\' then (parseStringBody r2).map (fun p => ('\\' :: p.1, p.2))
        else if e = '/' then (parseStringBody r2).map (fun p => ('/' :: p.1, p.2))
        else if e = 'b' then (parseStringBody r2).map (fun p => (Char.ofNat 8 :: p.1, p.2))
        else if e = 'f' then (parseStringBody r2).map (fun p => (Char.ofNat 12 :: p.1, p.2))
        else if e = 'n' then (parseStringBody r2).map (fun p => (Char.ofNat 10 :: p.1, p.2))
        else if e = 'r' then (parseStringBody r2).map (fun p => (Char.ofNat 13 :: p.1, p.2))
        else if e = 't' then (parseStringBody r2).map (fun p => (Char.ofNat 9 :: p.1, p.2))
        else if e = 'u' then
          match r2 with
          | h1 :: h2 :: h3 :: h4 :: r3 =>
            match hexVal h1, hexVal h2, hexVal h3, hexVal h4 with
            | some a, some b, some c2, some d =>
              (parseStringBody r3).map
                (fun p => (Char.ofNat (4096 * a + 256 * b + 16 * c2 + d) :: p.1, p.2))
            | _, _, _, _ => none
          | _ => none
        else none
    else if c.toNat < 32 then none
    else (parseStringBody r).map (fun p => (c :: p.1, p.2))

/-- Characters a number token may contain (a lenient superset of the JSON
number grammar; the codec never relies on numbers). -/
def isNumChar (c : Char) : Bool :=
  c.isDigit || c = '-' || c = '+' || c = '.' || c = 'e' || c = 'E'

/-- Parse a number token, keeping its lexeme. -/
def parseNumber (cs : List Char) : Option (JAny × List Char) :=
  let lexeme := cs.takeWhile isNumChar
  if lexeme.isEmpty then none else some (.num ⟨lexeme⟩, cs.dropWhile isNumChar)

mutual
/-- Recursive-descent `JSON.parse`, fuelled (the fuel only bounds the
grammar's recursion; `jsonParse` supplies more than enough). -/
def parseValue : Nat → List Char → Option (JAny × List Char)
  | 0, _ => none
  | fuel + 1, cs =>
    match skipWs cs with
    | [] => none
    | c :: r =>
      if c = '"' then (parseStringBody r).map (fun p => (.str ⟨p.1⟩, p.2))
      else if c = lbrace then
        match skipWs r with
        | [] => none
        | d :: r2 =>
          if d = rbrace then some (.obj [], r2)
          else (parseMembers fuel (d :: r2)).map (fun p => (.obj p.1, p.2))
      else if c = '[' then
        match skipWs r with
        | [] => none
        | d :: r2 =>
          if d = ']' then some (.arr [], r2)
          else (parseElems fuel (d :: r2)).map (fun p => (.arr p.1, p.2))
      else if ['t', 'r', 'u', 'e'].isPrefixOf (c :: r) then some (.bool true, (c :: r).drop 4)
      else if ['f', 'a', 'l', 's', 'e'].isPrefixOf (c :: r) then some (.bool false, (c :: r).drop 5)
      else if ['n', 'u', 'l', 'l'].isPrefixOf (c :: r) then some (.null, (c :: r).drop 4)
      else if c = '-' ∨ c.isDigit then parseNumber (c :: r)
      else none

/-- One or more comma-separated array elements followed by `]`. -/
def parseElems : Nat → List Char → Option (List JAny × List Char)
  | 0, _ => none
  | fuel + 1, cs =>
    match parseValue fuel cs with
    | none => none
    | some (v, r) =>
      match skipWs r with
      | [] => none
      | d :: r2 =>
        if d = ']' then some ([v], r2)
        else if d = ',' then (parseElems fuel r2).map (fun p => (v :: p.1, p.2))
        else none

/-- One or more comma-separated `"key":value` members followed by the
closing brace. -/
def parseMembers : Nat → List Char → Option (List (String × JAny) × List Char)
  | 0, _ => none
  | fuel + 1, cs =>
    match skipWs cs with
    | [] => none
    | c :: r =>
      if c = '"' then
        match parseStringBody r with
        | none => none
        | some (k, r1) =>
          match skipWs r1 with
          | [] => none
          | d :: r2 =>
            if d = ':' then
              match parseValue fuel r2 with
              | none => none
              | some (v, r3) =>
                match skipWs r3 with
                | [] => none
                | e :: r4 =>
                  if e = rbrace then some ([(⟨k⟩, v)], r4)
                  else if e = ',' then
                    (parseMembers fuel r4).map (fun p => ((⟨k⟩, v) :: p.1, p.2))
                  else none
            else none
      else none
end

/-- `JSON.parse` of a whole text: one value, then only whitespace. -/
def jsonParse (cs : List Char) : Option JAny :=
  match parseValue (cs.length + 1) cs with
  | some (v, r) => if skipWs r = [] then some v else none
  | none => none

/-! ## Base64 (`btoa` / `atob`) and the URL-safe fragment codec
(`saveStateToHash`, src/form.ts lines 368-380; `loadStateFromHash`,
lines 382-399) -/

/-- The base64 alphabet, digit value to character. -/
def b64Alphabet : List Char :=
  ['A', 'B', 'C', 'D', 'E', 'F', 'G', 'H', 'I', 'J', 'K', 'L', 'M',
   'N', 'O', 'P', 'Q', 'R', 'S', 'T', 'U', 'V', 'W', 'X', 'Y', 'Z',
   'a', 'b', 'c', 'd', 'e', 'f', 'g', 'h', 'i', 'j', 'k', 'l', 'm',
   'n', 'o', 'p', 'q', 'r', 's', 't', 'u', 'v', 'w', 'x', 'y', 'z',
   '0', '1', '2', '3', '4', '5', '6', '7', '8', '9', '+', '/']

/-- Character for a 6-bit digit. -/
def encChar (n : Nat) : Char := b64Alphabet.getD n '?'

/-- 6-bit digit for a character (`none` on anything outside the
alphabet, which makes `atob` throw). -/
def decChar (c : Char) : Option Nat := b64Alphabet.findIdx? (fun d => d = c)

/-- `btoa`'s byte-triple-to-character encoding, with `=` padding. -/
def b64encode : List Nat → List Char
  | [] => []
  | [b0] => [encChar (b0 / 4), encChar (b0 % 4 * 16), '=', '=']
  | [b0, b1] => [encChar (b0 / 4), encChar (b0 % 4 * 16 + b1 / 16), encChar (b1 % 16 * 4), '=']
  | b0 :: b1 :: b2 :: rest =>
    encChar (b0 / 4) :: encChar (b0 % 4 * 16 + b1 / 16) ::
    encChar (b1 % 16 * 4 + b2 / 64) :: encChar (b2 % 64) :: b64encode rest

/-- `atob`'s character-quadruple-to-byte decoding: the input length must be
a multiple of four, `=` may appear only as final padding, and any
character outside the alphabet throws (`none`). -/
def b64decode : List Char → Option (List Nat)
  | [] => some []
  | c0 :: c1 :: c2 :: c3 :: rest =>
    (decChar c0).bind fun d0 =>
    (decChar c1).bind fun d1 =>
    if c2 = '=' then
      if c3 = '=' ∧ rest = [] then some [d0 * 4 + d1 / 16] else none
    else
      (decChar c2).bind fun d2 =>
      if c3 = '=' then
        if rest = [] then some [d0 * 4 + d1 / 16, d1 % 16 * 16 + d2 / 4] else none
      else
        (decChar c3).bind fun d3 =>
        (b64decode rest).map fun bs =>
          (d0 * 4 + d1 / 16) :: (d1 % 16 * 16 + d2 / 4) :: (d2 % 4 * 64 + d3) :: bs
  | _ => none

/-- `btoa(s)`: rejects any character above code point 255, otherwise
encodes the code points as bytes. -/
def btoaJs (cs : List Char) : Option (List Char) :=
  if cs.all (fun c => c.toNat < 256) then some (b64encode (cs.map Char.toNat))
  else none

/-- `atob(s)`: bytes back to a character-per-byte string. -/
def atobJs (cs : List Char) : Option (List Char) :=
  (b64decode cs).map (fun bs => bs.map Char.ofNat)

/-- `.replace(/\+/g, "-")` on one character. -/
def subPlus (c : Char) : Char := if c = '+' then '-' else c

/-- `.replace(/\//g, "_")` on one character. -/
def subSlash (c : Char) : Char := if c = '/' then '_' else c

/-- The global replacement of `-` back to `+`, on one character. -/
def unsubPlus (c : Char) : Char := if c = '-' then '+' else c

/-- The global replacement of `_` back to the slash, on one character. -/
def unsubSlash (c : Char) : Char := if c = '_' then '/' else c

/-- `.replace(/=+$/, "")`: drop the trailing run of `=`. -/
def stripEq : List Char → List Char
  | [] => []
  | c :: rest =>
    match stripEq rest with
    | [] => if c = '=' then [] else [c]
    | r => c :: r

/-- `"=".repeat((4 - s.length % 4) % 4)` re-padding. -/
def repad (cs : List Char) : List Char :=
  cs ++ List.replicate ((4 - cs.length % 4) % 4) '='

/-- The fragment written by `saveStateToHash` for a non-empty snapshot:
`btoa(JSON.stringify(data))` with `+`→`-`, `/`→`_` and the `=` padding
stripped.  `none` models `btoa` throwing on a character above 255. -/
def encodeFragment (data : Snapshot) : Option (List Char) :=
  (btoaJs (stringifyJ (.obj data))).map
    (fun b64 => stripEq ((b64.map subPlus).map subSlash))

/-- The decoding performed by `loadStateFromHash` on a fragment: restore
`-`→`+` and `_`→`/`, re-pad to a multiple of four, `atob`, `JSON.parse`.
`none` models the caught exception path. -/
def decodeFragment (frag : List Char) : Option JAny :=
  (atobJs (repad ((frag.map unsubPlus).map unsubSlash))).bind jsonParse

/-- A call into the History API: `saveStateToHash` is specified to use
`replaceState` only; `pushState` exists in the model so "never pushes" is
expressible.  The `Option String` is the address: `some f` sets the
fragment to `#f`, `none` restores the bare path (no fragment). -/
inductive HistoryUpdate where
  | replaceState (hash : Option (List Char))
  | pushState (hash : Option (List Char))
deriving DecidableEq

/-- `saveStateToHash` (src/form.ts lines 368-380): serialize without
defaults; a non-empty snapshot is encoded into the fragment, an empty one
clears the address back to path+search; both via `history.replaceState`.
`none` models a thrown `btoa` error. -/
def saveStateToHash (form : Form) (sig : SigState) (today : String) :
    Option HistoryUpdate :=
  let data := serializeForm form sig today false
  if data.length > 0 then
    (encodeFragment data).map (fun frag => .replaceState (some frag))
  else some (.replaceState none)

/-! ## Textarea line limiting and the "same as" address mirroring
(`limitTextareaLines`, src/form.ts lines 497-506; `syncAddress`,
lines 516-530) -/

/-- `value.split("\n")` (single-character separator). -/
def splitNl : List Char → List (List Char)
  | [] => [[]]
  | c :: t =>
    if c = '\n' then [] :: splitNl t
    else
      match splitNl t with
      | [] => [[c]]
      | h :: t2 => (c :: h) :: t2

/-- `lines.join("\n")`. -/
def joinNl : List (List Char) → List Char
  | [] => []
  | [l] => l
  | l :: ls => l ++ '\n' :: joinNl ls

/-- `limitTextareaLines`: if the value has more than `maxLines` lines,
splice off the excess and re-join. -/
def limitLines (maxLines : Nat) (cs : List Char) : List Char :=
  let lines := splitNl cs
  if lines.length > maxLines then joinNl (lines.take maxLines) else cs

/-- The mirrored-address corner of the form: the `q3a_sameAs2` toggle,
the `q2_address` source textarea (2-line limit) and the `q3a_homeAddress`
destination textarea (7-line limit, disabled while mirroring). -/
structure MirrorState where
  sameAs : Bool
  q2 : List Char
  q3a : List Char
  q3aDisabled : Bool
deriving DecidableEq

/-- `syncAddress` plus the effects of the `input` event it dispatches on
the destination: while checked, the destination receives the source value
and is disabled, and its input listeners run (7-line limit, then the
form-level uppercase normalization); unchecked, it is only re-enabled. -/
def syncAddress (st : MirrorState) : MirrorState :=
  if st.sameAs then
    { st with q3a := jsUpperL (limitLines 7 st.q2), q3aDisabled := true }
  else
    { st with q3aDisabled := false }

/-- A user `input` event on the source textarea `q2_address` carrying the
raw new value: target-phase listeners run first (the 2-line limit, then
`syncAddress`), then the event bubbles to the form where
`normalizeToUppercase` rewrites the source. -/
def sourceInput (raw : List Char) (st : MirrorState) : MirrorState :=
  let st1 := { st with q2 := limitLines 2 raw }
  let st2 := syncAddress st1
  { st2 with q2 := jsUpperL st2.q2 }

/-- A `change` event on the `q3a_sameAs2` checkbox after the user sets it
to `checkedNow`: only `syncAddress` runs. -/
def toggleSameAs (checkedNow : Bool) (st : MirrorState) : MirrorState :=
  syncAddress { st with sameAs := checkedNow }

/-! ## Phone blur formatting (src/form.ts lines 533-542) -/

/-- The `blur` handler of `q3b_telephone`: strip non-digits; exactly ten
digits are rewritten as `(DDD) DDD-DDDD`; then `normalizeToUppercase`
runs on the `tel` input. -/
def phoneBlur (v : String) : String :=
  let digits := v.data.filter Char.isDigit
  let v2 : List Char :=
    if digits.length = 10 then
      '(' :: digits.take 3 ++ [')', ' '] ++ (digits.drop 3).take 3 ++ '-' :: (digits.drop 6).take 4
    else v.data
  ⟨jsUpperL v2⟩

/-! ## Validation rules (src/form.ts lines 402-447) -/

/-- The telephone predicate: empty, or every character is a digit, a
whitespace character, a parenthesis or a dash, with at least one
character (the regex has an anchored character-class plus). -/
def telephoneCheck (v : String) : Bool :=
  v = "" ||
    v.data.all (fun c =>
      c.isDigit || c = ' ' || c = '\t' || c = '\n' || c = '\x0b' || c = '\x0c' || c = '\r' ||
      c = '(' || c = ')' || c = '-')

/-- A character the unflagged regex dot matches (anything but a line
terminator). -/
def dotChar (c : Char) : Bool :=
  !(c = '\n' || c = '\r' || c.toNat = 8232 || c.toNat = 8233)

/-- Does the list contain a dot-char, `@`, dot-char window (the test of
the unanchored email regex)? -/
def emailPat : List Char → Bool
  | a :: b :: c :: rest => (dotChar a && b = '@' && dotChar c) || emailPat (b :: c :: rest)
  | _ => false

/-- The email predicate: empty, or matches `.+@.+` somewhere. -/
def emailCheck (v : String) : Bool := v = "" || emailPat v.data

/-- The tax-id predicate: empty, or `DDD-DD-DDDD`, or 9 digits, or 8
alphanumeric characters. -/
def ssnCheck (v : String) : Bool :=
  v = "" ||
    (match v.data with
     | [a, b, c, '-', d, e, '-', f, g, h, i] =>
       [a, b, c, d, e, f, g, h, i].all Char.isDigit
     | _ => false) ||
    (v.data.length = 9 && v.data.all Char.isDigit) ||
    (v.data.length = 8 && v.data.all Char.isAlphanum)

/-- `new Date(v)` for the birth-date check, modelled on the `YYYY-MM-DD`
inputs a date control produces: the digits are packed into one ordinal so
that date order is the numeric order; any other shape is an invalid date
(`NaN`), and `NaN <= now` is false. -/
def parseDateOrd (v : String) : Option Nat :=
  match v.data with
  | [y1, y2, y3, y4, '-', m1, m2, '-', d1, d2] =>
    if [y1, y2, y3, y4, m1, m2, d1, d2].all Char.isDigit then
      some ((((y1.toNat - 48) * 1000 + (y2.toNat - 48) * 100 + (y3.toNat - 48) * 10 +
              (y4.toNat - 48)) * 100 + (m1.toNat - 48) * 10 + (m2.toNat - 48)) * 100 +
            (d1.toNat - 48) * 10 + (d2.toNat - 48))
    else none
  | _ => none

/-- The birth-date predicate: empty, or `new Date(v) <= new Date()`. -/
def dobCheck (nowOrd : Nat) (v : String) : Bool :=
  v = "" ||
    (match parseDateOrd v with
     | some t => t ≤ nowOrd
     | none => false)

/-- One entry of the `validations` rule table. -/
structure ValidationRule where
  check : String → Bool
  msg : String

/-- The `validations` table (src/form.ts lines 402-419), keyed by field
name.  `nowOrd` is the moment `new Date()` is sampled by the birth-date
rule. -/
def validations (nowOrd : Nat) : List (String × ValidationRule) :=
  [("q3b_telephone", ⟨telephoneCheck, "Must only contain digits and separators."⟩),
   ("q3c_email", ⟨emailCheck, "Must be a valid email format."⟩),
   ("q3f_ssn", ⟨ssnCheck, "Must be a 9-digit SSN or 8-character UPIN."⟩),
   ("q3g_dob", ⟨dobCheck nowOrd, "Date of Birth cannot be in the future."⟩)]

/-- `validateField`: a missing field or a field without a rule is valid;
otherwise the rule's predicate decides. -/
def validateField (nowOrd : Nat) (field : Option Control) : Bool :=
  match field with
  | none => true
  | some f =>
    match (validations nowOrd).find? (fun r => r.1 = f.name) with
    | none => true
    | some r => r.2.check f.value

/-- `runAllValidations`: every rule's field (looked up by name, first
match) must validate. -/
def runAllValidations (nowOrd : Nat) (form : Form) : Bool :=
  (validations nowOrd).all (fun r => validateField nowOrd (namedItem form r.1).head?)

/-! ## Question 6: prohibitors, the nonimmigrant/exception dependency and
the "All NO" bulk action (src/form.ts lines 570-611)

Modelled from the spec: the static HTML of the form is not part of the
source tree, so the structure of the `q6_prohibitors` container is taken
from the spec — it holds the twelve prohibitor radio groups' `NO` options
and the `q6m1_nonimmigrant` `NO` option in document order (the
`q6m2_exception` `NO` option also sits inside the fieldset and is matched
by the `input[type="radio"][value="NO"]` selector).  The `q6m2` values are
`YES`, `NO` and `N/A`. -/

/-- The Question 6 corner of the form: selected value of each plain
prohibitor group (`q6a` … `q6l`), of `q6m1_nonimmigrant` and of
`q6m2_exception`, plus the disabled flags of the three `q6m2` radios. -/
structure Q6State where
  prohibitors : List (Option String)
  q6m1 : Option String
  q6m2 : Option String
  q6m2YesDisabled : Bool
  q6m2NoDisabled : Bool
  q6m2NaDisabled : Bool
deriving DecidableEq

/-- `updateQ6m2` (src/form.ts lines 587-610): the three-state dependency
of the exception sub-answer on the nonimmigrant answer. -/
def updateQ6m2 (st : Q6State) : Q6State :=
  if st.q6m1 = some "YES" then
    { st with
      q6m2YesDisabled := false, q6m2NoDisabled := false, q6m2NaDisabled := true,
      q6m2 := if st.q6m2 = some "N/A" then none else st.q6m2 }
  else if st.q6m1 = some "NO" then
    { st with
      q6m2YesDisabled := true, q6m2NoDisabled := true, q6m2NaDisabled := false,
      q6m2 := some "N/A" }
  else
    { st with
      q6m2YesDisabled := true, q6m2NoDisabled := true, q6m2NaDisabled := true,
      q6m2 := none }

/-- The `q6_allNo` click handler (src/form.ts lines 570-582): check every
`value="NO"` radio in the container in document order, dispatching a
`change` after each (only the `q6m1` radios have a state-relevant
listener, `updateQ6m2`); finally check `q6m2-na` and dispatch its
`change`. -/
def q6AllNo (st : Q6State) : Q6State :=
  let st1 := { st with prohibitors := st.prohibitors.map (fun _ => some "NO") }
  let st2 := updateQ6m2 { st1 with q6m1 := some "NO" }
  let st3 := { st2 with q6m2 := some "NO" }
  { st3 with q6m2 := some "N/A" }

/-! ## Derived predicates used by the theorems -/

/-- A control that both directions of the codec treat as text-like (and
therefore uppercase): `text`, `email` and `tel` inputs and real
textareas. -/
def textLike (c : Control) : Bool :=
  c.etype = "text" || c.etype = "email" || c.etype = "tel" ||
  (c.etype = "textarea" && c.tag = "TEXTAREA")

/-- Characterization of every write `data[k] = v` the `serializeForm`
control loop can perform: there is an enabled iterated control (or group
member) named `k`, and the written value is shaped by its `el.type`. -/
def loopWrite (form : Form) (today : String) (k : String) (v : JAny) : Prop :=
  ∃ el, el ∈ form ∧ el.name = k ∧
    ((el.etype = "checkbox" ∧
        ((∃ b, v = .bool b) ∨ ∃ vs : List String, v = .arr (vs.map JAny.str)))
     ∨ (el.etype = "radio" ∧ v = .str el.value)
     ∨ ((el.etype = "text" ∨ el.etype = "email" ∨ el.etype = "tel") ∧
          v = .str (jsUpper el.value))
     ∨ (el.etype = "date" ∧ v = .str el.value ∧ el.value ≠ "" ∧
          (el.name = "certificationDate" → el.value ≠ today))
     ∨ (el.etype ≠ "checkbox" ∧ el.etype ≠ "radio" ∧ el.etype ≠ "text" ∧
          el.etype ≠ "email" ∧ el.etype ≠ "tel" ∧ el.etype ≠ "date" ∧
          ((el.tag = "TEXTAREA" ∧ v = .str (jsUpper el.value)) ∨
           (el.tag ≠ "TEXTAREA" ∧ v = .str el.value))))

/-- All characters of a string fit in one byte — the domain of `btoa`. -/
def latin1 (s : String) : Bool := s.data.all (fun c => c.toNat < 256)

/-- A snapshot value of the data model: a string, a boolean, or a list of
strings; all strings Latin-1 so that `btoa` accepts the JSON text. -/
def valueOk : JAny → Bool
  | .str s => latin1 s
  | .bool _ => true
  | .arr xs => xs.all (fun x => match x with | .str s => latin1 s | _ => false)
  | _ => false

/-- A snapshot composed only of the data model's value types, with
Latin-1 keys and string contents. -/
def snapshotOk (data : Snapshot) : Bool :=
  data.all (fun p => latin1 p.1 && valueOk p.2)

/-- Parser fuel sufficient for one model value. -/
def vfuel : JAny → Nat
  | .arr xs => xs.length + 1
  | _ => 0

/-- Parser fuel sufficient for an object member list. -/
def memFuel : Snapshot → Nat
  | [] => 1
  | (_, v) :: rest => vfuel v + 1 + memFuel rest

/-- A snapshot key that the deserializer handles without any possibility
of a TypeError: the reserved `signature` key, a key with no control, or a
key whose (first) control is not a radio or checkbox. -/
def textSafeKey (form : Form) (k : String) : Bool :=
  k = "signature" ||
    (match namedItem form k with
     | [] => true
     | el :: _ => !(el.etype = "radio") && !(el.etype = "checkbox"))

/-- The relation between a control before and after one `deserializeForm`
call on a snapshot `data`: identity on the name/type/tag skeleton, and the
value is either untouched, or — when it was (re)written — upper-case
invariant for a text-like control and the raw snapshot string for a date
input. -/
def applyRel (data : Snapshot) (c c2 : Control) : Prop :=
  c2.name = c.name ∧ c2.etype = c.etype ∧ c2.tag = c.tag ∧
  (c2.value = c.value ∨
    ((textLike c = true → c2.value = jsUpper c2.value) ∧
     (c.etype = "date" ∧ c.tag = "INPUT" →
        ∃ s, (c.name, JAny.str s) ∈ data ∧ c2.value = s)))

/-! ## Supporting lemmas -/

theorem charToNat_ofNat (n : Nat) (h : n < 55296) : (Char.ofNat n).toNat = n := by
  have hv : n.isValidChar := Or.inl h
  rw [Char.ofNat, dif_pos hv]
  unfold Char.ofNatAux Char.toNat
  rfl

theorem jsUpperChar_fix (c : Char) (h : c.toNat < 97) : jsUpperChar c = c := by
  unfold jsUpperChar
  have hcond : ¬(97 ≤ c.toNat ∧ c.toNat ≤ 122) := by omega
  rw [if_neg hcond]

theorem jsUpperChar_idem (c : Char) : jsUpperChar (jsUpperChar c) = jsUpperChar c := by
  unfold jsUpperChar
  by_cases h : 97 ≤ c.toNat ∧ c.toNat ≤ 122
  · rw [if_pos h]
    have hd : (Char.ofNat (c.toNat - 32)).toNat = c.toNat - 32 :=
      charToNat_ofNat _ (by omega)
    have hcond : ¬(97 ≤ (Char.ofNat (c.toNat - 32)).toNat ∧
        (Char.ofNat (c.toNat - 32)).toNat ≤ 122) := by
      rw [hd]; omega
    rw [if_neg hcond]
  · rw [if_neg h, if_neg h]

theorem jsUpperL_fix (cs : List Char) (h : ∀ c ∈ cs, c.toNat < 97) :
    jsUpperL cs = cs := by
  induction cs with
  | nil => rfl
  | cons c t ih =>
    simp only [jsUpperL, List.map_cons]
    rw [jsUpperChar_fix c (h c (List.mem_cons_self c t))]
    have := ih (fun d hd => h d (List.mem_cons_of_mem c hd))
    simp only [jsUpperL] at this
    rw [this]

theorem jsUpperL_idem (cs : List Char) : jsUpperL (jsUpperL cs) = jsUpperL cs := by
  induction cs with
  | nil => rfl
  | cons c t ih =>
    simp only [jsUpperL, List.map_cons] at *
    rw [jsUpperChar_idem, ih]

theorem jsUpper_idem (s : String) : jsUpper (jsUpper s) = jsUpper s := by
  unfold jsUpper
  have : (String.mk (jsUpperL s.data)).data = jsUpperL s.data := rfl
  rw [this, jsUpperL_idem]

theorem isDigit_toNat_lt (c : Char) (h : c.isDigit = true) : c.toNat < 97 := by
  have h2 : c.toNat ≤ 57 := by
    simp [Char.isDigit] at h
    exact h.2
  omega

theorem mem_setKey {data : Snapshot} {k a : String} {w v : JAny}
    (h : (a, v) ∈ setKey data k w) :
    (a = k ∧ v = w) ∨ ((a, v) ∈ data ∧ a ≠ k) := by
  unfold setKey at h
  by_cases hex : data.any (fun p => p.1 = k)
  · rw [if_pos hex] at h
    rcases List.mem_map.1 h with ⟨p, hp, heq⟩
    by_cases hpk : p.1 = k
    · rw [if_pos hpk] at heq
      injection heq with h1 h2
      exact Or.inl ⟨h1.symm, h2.symm⟩
    · rw [if_neg hpk] at heq
      refine Or.inr ⟨heq ▸ hp, fun hak => ?_⟩
      rw [heq] at hpk
      exact hpk hak
  · rw [if_neg hex] at h
    rcases List.mem_append.1 h with h1 | h2
    · refine Or.inr ⟨h1, fun hak => ?_⟩
      exact hex (List.any_eq_true.2 ⟨(a, v), h1, by simpa using hak⟩)
    · have heq := List.mem_singleton.1 h2
      injection heq with h1 h2
      exact Or.inl ⟨h1, h2⟩

theorem serializeLoop_writes (form : Form) (incl : Bool) (today : String) :
    ∀ rem processed data, (∀ c ∈ rem, c ∈ form) →
      ∀ k v, (k, v) ∈ serializeLoop form incl today rem processed data →
        (k, v) ∈ data ∨ loopWrite form today k v := by
  intro rem
  induction rem with
  | nil =>
    intro processed data _ k v hv
    exact Or.inl hv
  | cons el rest ih =>
    intro processed data hsub k v hv
    have hel : el ∈ form := hsub el (List.mem_cons_self el rest)
    have hsub' : ∀ c ∈ rest, c ∈ form :=
      fun c hc => hsub c (List.mem_cons_of_mem el hc)
    have key : ∀ processed' (data' : Snapshot),
        (∀ a w, (a, w) ∈ data' → (a, w) ∈ data ∨ loopWrite form today a w) →
        (k, v) ∈ serializeLoop form incl today rest processed' data' →
        (k, v) ∈ data ∨ loopWrite form today k v := by
      intro processed' data' hd hv'
      rcases ih processed' data' hsub' k v hv' with hmem | hw
      · exact hd k v hmem
      · exact Or.inr hw
    have keep : ∀ a w, (a, w) ∈ data → (a, w) ∈ data ∨ loopWrite form today a w :=
      fun a w hw => Or.inl hw
    simp only [serializeLoop] at hv
    by_cases h1 : el.name = "" ∨ el.disabled = true
    · rw [if_pos h1] at hv
      exact key _ _ keep hv
    rw [if_neg h1] at hv
    by_cases h2 : el.etype = "checkbox"
    · rw [if_pos h2] at hv
      by_cases h3 : el.name ∈ processed
      · rw [if_pos h3] at hv
        exact key _ _ keep hv
      rw [if_neg h3] at hv
      cases hnm : namedItem form el.name with
      | nil =>
        rw [hnm] at hv
        exact key _ _ keep hv
      | cons cb cbs =>
        cases cbs with
        | nil =>
          rw [hnm] at hv
          refine key _ _ ?_ hv
          intro a w hw
          have hwrite : (a = el.name ∧ ∃ b, w = JAny.bool b) ∨ (a, w) ∈ data := by
            by_cases hq : el.name = "q3a_sameAs2"
            · rw [if_pos hq] at hw
              by_cases hcbc : cb.checked = false
              · rw [if_pos hcbc] at hw
                rcases mem_setKey hw with ⟨ha, hwv⟩ | ⟨hmem, _⟩
                · exact Or.inl ⟨ha, _, hwv⟩
                · exact Or.inr hmem
              · rw [if_neg hcbc] at hw
                by_cases hinc : incl = true
                · rw [if_pos hinc] at hw
                  rcases mem_setKey hw with ⟨ha, hwv⟩ | ⟨hmem, _⟩
                  · exact Or.inl ⟨ha, _, hwv⟩
                  · exact Or.inr hmem
                · rw [if_neg hinc] at hw
                  exact Or.inr hw
            · rw [if_neg hq] at hw
              rcases mem_setKey hw with ⟨ha, hwv⟩ | ⟨hmem, _⟩
              · exact Or.inl ⟨ha, _, hwv⟩
              · exact Or.inr hmem
          rcases hwrite with ⟨ha, b, hwv⟩ | hmem
          · exact Or.inr ⟨el, hel, ha.symm, Or.inl ⟨h2, Or.inl ⟨b, hwv⟩⟩⟩
          · exact Or.inl hmem
        | cons cb2 cbs2 =>
          rw [hnm] at hv
          refine key _ _ ?_ hv
          intro a w hw
          by_cases hlen : (((cb :: cb2 :: cbs2).filter (fun c => c.checked)).map
              (fun c => c.value)).length > 0
          · rw [if_pos hlen] at hw
            rcases mem_setKey hw with ⟨ha, hwv⟩ | ⟨hmem, _⟩
            · exact Or.inr ⟨el, hel, ha.symm, Or.inl ⟨h2, Or.inr ⟨_, hwv⟩⟩⟩
            · exact Or.inl hmem
          · rw [if_neg hlen] at hw
            exact Or.inl hw
    rw [if_neg h2] at hv
    by_cases h4 : el.etype = "radio"
    · rw [if_pos h4] at hv
      refine key _ _ ?_ hv
      intro a w hw
      by_cases hcv : el.checked = true ∧ el.value ≠ ""
      · rw [if_pos hcv] at hw
        rcases mem_setKey hw with ⟨ha, hwv⟩ | ⟨hmem, _⟩
        · exact Or.inr ⟨el, hel, ha.symm, Or.inr (Or.inl ⟨h4, hwv⟩)⟩
        · exact Or.inl hmem
      · rw [if_neg hcv] at hw
        exact Or.inl hw
    rw [if_neg h4] at hv
    by_cases h5 : el.etype = "text" ∨ el.etype = "email" ∨ el.etype = "tel"
    · rw [if_pos h5] at hv
      by_cases hoth : el.name.endsWith "_other" = true
      · rw [if_pos hoth] at hv
        refine key _ _ ?_ hv
        intro a w hw
        split at hw
        · exact Or.inl hw
        · split at hw
          · split at hw
            · rcases mem_setKey hw with ⟨ha, hwv⟩ | ⟨hmem, _⟩
              · exact Or.inr ⟨el, hel, ha.symm, Or.inr (Or.inr (Or.inl ⟨h5, hwv⟩))⟩
              · exact Or.inl hmem
            · exact Or.inl hw
          · exact Or.inl hw
      · rw [if_neg hoth] at hv
        refine key _ _ ?_ hv
        intro a w hw
        by_cases hev : el.value ≠ ""
        · rw [if_pos hev] at hw
          rcases mem_setKey hw with ⟨ha, hwv⟩ | ⟨hmem, _⟩
          · exact Or.inr ⟨el, hel, ha.symm, Or.inr (Or.inr (Or.inl ⟨h5, hwv⟩))⟩
          · exact Or.inl hmem
        · rw [if_neg hev] at hw
          exact Or.inl hw
    rw [if_neg h5] at hv
    by_cases h6 : el.etype = "date"
    · rw [if_pos h6] at hv
      refine key _ _ ?_ hv
      intro a w hw
      by_cases hcert : el.name = "certificationDate"
      · rw [if_pos hcert] at hw
        by_cases hcond : el.value ≠ "" ∧ el.value ≠ today
        · rw [if_pos hcond] at hw
          rcases mem_setKey hw with ⟨ha, hwv⟩ | ⟨hmem, _⟩
          · exact Or.inr ⟨el, hel, ha.symm,
              Or.inr (Or.inr (Or.inr (Or.inl ⟨h6, hwv, hcond.1, fun _ => hcond.2⟩)))⟩
          · exact Or.inl hmem
        · rw [if_neg hcond] at hw
          exact Or.inl hw
      · rw [if_neg hcert] at hw
        by_cases hev : el.value ≠ ""
        · rw [if_pos hev] at hw
          rcases mem_setKey hw with ⟨ha, hwv⟩ | ⟨hmem, _⟩
          · exact Or.inr ⟨el, hel, ha.symm,
              Or.inr (Or.inr (Or.inr (Or.inl ⟨h6, hwv, hev, fun hc => absurd hc hcert⟩)))⟩
          · exact Or.inl hmem
        · rw [if_neg hev] at hw
          exact Or.inl hw
    rw [if_neg h6] at hv
    refine key _ _ ?_ hv
    intro a w hw
    by_cases hev : el.value ≠ ""
    · rw [if_pos hev] at hw
      by_cases hta : el.tag = "TEXTAREA"
      · rw [if_pos hta] at hw
        rcases mem_setKey hw with ⟨ha, hwv⟩ | ⟨hmem, _⟩
        · refine Or.inr ⟨el, hel, ha.symm,
            Or.inr (Or.inr (Or.inr (Or.inr ⟨h2, h4, ?_, ?_, ?_, h6, Or.inl ⟨hta, hwv⟩⟩)))⟩
          · exact fun hc => h5 (Or.inl hc)
          · exact fun hc => h5 (Or.inr (Or.inl hc))
          · exact fun hc => h5 (Or.inr (Or.inr hc))
        · exact Or.inl hmem
      · rw [if_neg hta] at hw
        rcases mem_setKey hw with ⟨ha, hwv⟩ | ⟨hmem, _⟩
        · refine Or.inr ⟨el, hel, ha.symm,
            Or.inr (Or.inr (Or.inr (Or.inr ⟨h2, h4, ?_, ?_, ?_, h6, Or.inr ⟨hta, hwv⟩⟩)))⟩
          · exact fun hc => h5 (Or.inl hc)
          · exact fun hc => h5 (Or.inr (Or.inl hc))
          · exact fun hc => h5 (Or.inr (Or.inr hc))
        · exact Or.inl hmem
    · rw [if_neg hev] at hw
      exact Or.inl hw

theorem serializeForm_mem (form : Form) (sig : SigState) (today : String)
    (incl : Bool) (k : String) (v : JAny)
    (h : (k, v) ∈ serializeForm form sig today incl) :
    loopWrite form today k v ∨ (k = "signature" ∧ v = .str sig.payload) := by
  simp only [serializeForm] at h
  by_cases hs : sig.present = true ∧ sig.isEmpty = false ∧ sig.payload ≠ ""
  · rw [if_pos hs] at h
    rcases mem_setKey h with ⟨ha, hwv⟩ | ⟨hmem, _⟩
    · exact Or.inr ⟨ha, hwv⟩
    · rcases serializeLoop_writes form incl today form [] []
        (fun c hc => hc) k v hmem with hthere | hw
      · cases hthere
      · exact Or.inl hw
  · rw [if_neg hs] at h
    rcases serializeLoop_writes form incl today form [] []
      (fun c hc => hc) k v h with hthere | hw
    · cases hthere
    · exact Or.inl hw

/-! ## Claim theorems -/

/-- C9: for every phone-field value whose digit characters number exactly
ten, the blur handler rewrites the field to `(DDD) DDD-DDDD` built from
those ten digits. -/
theorem phoneBlur_ten_digits (v : String)
    (h : (v.data.filter Char.isDigit).length = 10) :
    phoneBlur v = ⟨'(' :: (v.data.filter Char.isDigit).take 3 ++ [')', ' '] ++
      ((v.data.filter Char.isDigit).drop 3).take 3 ++
      '-' :: ((v.data.filter Char.isDigit).drop 6).take 4⟩ := by
  simp only [phoneBlur, h, reduceIte]
  congr 1
  apply jsUpperL_fix
  intro c hc
  have hdig : ∀ d ∈ v.data.filter Char.isDigit, d.toNat < 97 := by
    intro d hd
    exact isDigit_toNat_lt d (List.of_mem_filter hd)
  rcases List.mem_append.1 hc with h1 | h2
  · rcases List.mem_append.1 h1 with h3 | h4
    · rcases List.mem_append.1 h3 with h5 | h6
      · rcases List.mem_cons.1 h5 with rfl | h7
        · decide
        · exact hdig c (List.take_subset _ _ h7)
      · rcases List.mem_cons.1 h6 with rfl | h8
        · decide
        rcases List.mem_cons.1 h8 with rfl | h9
        · decide
        · cases h9
    · exact hdig c (List.drop_subset _ _ (List.take_subset _ _ h4))
  · rcases List.mem_cons.1 h2 with rfl | h10
    · decide
    · exact hdig c (List.drop_subset _ _ (List.take_subset _ _ h10))

/-- Witness for C9, at the spec's concrete scenario. -/
theorem phoneBlur_ten_digits_witness :
    ("1234567890".data.filter Char.isDigit).length = 10 ∧
    phoneBlur "1234567890" = "(123) 456-7890" :=
  ⟨by decide, by rw [phoneBlur_ten_digits "1234567890" (by decide)]; rfl⟩

theorem validations_check_empty (nowOrd : Nat) (r : String × ValidationRule)
    (hr : r ∈ validations nowOrd) : r.2.check "" = true := by
  simp only [validations, List.mem_cons, List.not_mem_nil, or_false] at hr
  rcases hr with rfl | rfl | rfl | rfl <;> rfl

/-- C10: every validation predicate in the rule table returns true on the
empty string, so an unfilled validated field is never flagged and an
all-empty form passes `runAllValidations`. -/
theorem validations_empty_never_flagged :
    (∀ nowOrd r, r ∈ validations nowOrd → r.2.check "" = true) ∧
    (∀ nowOrd form, (∀ c ∈ form, c.value = "") →
      runAllValidations nowOrd form = true) := by
  refine ⟨validations_check_empty, ?_⟩
  intro nowOrd form h
  unfold runAllValidations
  rw [List.all_eq_true]
  intro r hr
  cases hh : (namedItem form r.1).head? with
  | none => simp [validateField, hh]
  | some f =>
    have hfm : f ∈ namedItem form r.1 := by
      cases hnm : namedItem form r.1 with
      | nil => rw [hnm] at hh; cases hh
      | cons a t =>
        rw [hnm] at hh
        simp only [List.head?_cons, Option.some.injEq] at hh
        exact List.mem_cons.2 (Or.inl hh.symm)
    have hf : f ∈ form := List.mem_of_mem_filter hfm
    cases hfind : (validations nowOrd).find? (fun q => q.1 = f.name) with
    | none => simp [validateField, hh, hfind]
    | some q =>
      have hcheck := validations_check_empty nowOrd q (List.mem_of_find?_eq_some hfind)
      simp [validateField, hh, hfind, h f hf, hcheck]

/-- Witness for C10's second conjunct is not needed (the statement has no
top-level hypothesis), but the first conjunct is exercised concretely:
an empty form with the four validated fields empty passes. -/
theorem validations_empty_never_flagged_witness :
    runAllValidations 20260101
      [⟨"q3b_telephone", "tel", "INPUT", "", false, false⟩] = true :=
  validations_empty_never_flagged.2 20260101 _ (by
    intro c hc
    simp only [List.mem_singleton] at hc
    rw [hc])

/-- C5: after the Q6 "All NO" bulk action, every prohibitor group holds its
default `NO`, the nonimmigrant answer is `NO`, the exception sub-answer is
its not-applicable default with exactly the `N/A` radio enabled — no
dependent control is left in an inconsistent enabled/value pair. -/
theorem q6AllNo_forces_defaults (st : Q6State) :
    (∀ g ∈ (q6AllNo st).prohibitors, g = some "NO") ∧
    (q6AllNo st).q6m1 = some "NO" ∧
    (q6AllNo st).q6m2 = some "N/A" ∧
    (q6AllNo st).q6m2YesDisabled = true ∧
    (q6AllNo st).q6m2NoDisabled = true ∧
    (q6AllNo st).q6m2NaDisabled = false := by
  unfold q6AllNo updateQ6m2
  simp

/-- C6 counterexample: `serializeForm` invoked with the form element
missing does not log-and-skip — it throws `Error("Form not found")`. -/
theorem serializeFormTop_missing_throws :
    serializeFormTop none ⟨false, true, ""⟩ "2026-01-01" false
      = .error "Form not found" := rfl

/-- C6 amended: the `init` entry point logs and skips when the form
element is missing, but `serializeForm` itself throws
`Error("Form not found")` to its caller. -/
theorem missingForm_behavior :
    (∀ sig today incl, serializeFormTop none sig today incl
        = .error "Form not found") ∧
    initGuard none = .loggedSkip "Form not found" :=
  ⟨fun _ _ _ => rfl, rfl⟩

/-- C7: `saveStateToHash` clears the fragment (bare path) for an empty
snapshot, writes the encoded fragment for a non-empty one, and only ever
replaces the current history entry — it never pushes. -/
theorem saveStateToHash_replace_semantics (form : Form) (sig : SigState)
    (today : String) :
    (serializeForm form sig today false = [] →
      saveStateToHash form sig today = some (.replaceState none)) ∧
    (serializeForm form sig today false ≠ [] →
      saveStateToHash form sig today =
        (encodeFragment (serializeForm form sig today false)).map
          (fun frag => HistoryUpdate.replaceState (some frag))) ∧
    (∀ u, saveStateToHash form sig today = some u →
      ∀ hsh, u ≠ .pushState hsh) := by
  refine ⟨?_, ?_, ?_⟩
  · intro he
    simp [saveStateToHash, he]
  · intro hne
    have hl : (serializeForm form sig today false).length > 0 :=
      List.length_pos.2 hne
    simp only [saveStateToHash]
    rw [if_pos hl]
  · intro u hu hsh
    by_cases he : serializeForm form sig today false = []
    · simp [saveStateToHash, he] at hu
      rw [← hu]
      intro hcon
      cases hcon
    · have hl : (serializeForm form sig today false).length > 0 :=
        List.length_pos.2 he
      simp only [saveStateToHash] at hu
      rw [if_pos hl] at hu
      rcases Option.map_eq_some'.1 hu with ⟨frag, _, hfu⟩
      rw [← hfu]
      intro hcon
      cases hcon

/-- Witness for C7 at the empty form (the spec's scenario 1). -/
theorem saveStateToHash_replace_semantics_witness :
    saveStateToHash [] ⟨false, true, ""⟩ "X" = some (.replaceState none) :=
  (saveStateToHash_replace_semantics [] ⟨false, true, ""⟩ "X").1 rfl

theorem splitNl_ne_nil (cs : List Char) : splitNl cs ≠ [] := by
  cases cs with
  | nil => simp [splitNl]
  | cons c t =>
    simp only [splitNl]
    by_cases h : c = '\n'
    · rw [if_pos h]; simp
    · rw [if_neg h]
      cases splitNl t <;> simp

theorem noNl_mem_splitNl : ∀ cs : List Char, ∀ l ∈ splitNl cs, '\n' ∉ l := by
  intro cs
  induction cs with
  | nil =>
    intro l hl
    simp only [splitNl, List.mem_singleton] at hl
    rw [hl]
    simp
  | cons c t ih =>
    intro l hl
    simp only [splitNl] at hl
    by_cases h : c = '\n'
    · rw [if_pos h] at hl
      rcases List.mem_cons.1 hl with rfl | hl2
      · simp
      · exact ih l hl2
    · rw [if_neg h] at hl
      cases hsp : splitNl t with
      | nil => exact absurd hsp (splitNl_ne_nil t)
      | cons h0 t0 =>
        rw [hsp] at hl
        rcases List.mem_cons.1 hl with rfl | hl2
        · intro hmem
          rcases List.mem_cons.1 hmem with heq | hmem2
          · exact h heq.symm
          · exact ih h0 (by rw [hsp]; exact List.mem_cons_self h0 t0) hmem2
        · exact ih l (by rw [hsp]; exact List.mem_cons_of_mem h0 hl2)

theorem splitNl_of_noNl (l : List Char) (h : '\n' ∉ l) : splitNl l = [l] := by
  induction l with
  | nil => rfl
  | cons c t ih =>
    have hc : c ≠ '\n' := fun hcc => h (List.mem_cons.2 (Or.inl hcc.symm))
    have ht : '\n' ∉ t := fun hm => h (List.mem_cons_of_mem c hm)
    simp only [splitNl, if_neg hc, ih ht]

theorem splitNl_append_nl (l r : List Char) (h : '\n' ∉ l) :
    splitNl (l ++ '\n' :: r) = l :: splitNl r := by
  induction l with
  | nil => simp [splitNl]
  | cons c t ih =>
    have hc : c ≠ '\n' := fun hcc => h (List.mem_cons.2 (Or.inl hcc.symm))
    have ht : '\n' ∉ t := fun hm => h (List.mem_cons_of_mem c hm)
    simp only [List.cons_append, splitNl, if_neg hc, List.append_eq, ih ht]

theorem splitNl_joinNl : ∀ ls : List (List Char), ls ≠ [] →
    (∀ l ∈ ls, '\n' ∉ l) → splitNl (joinNl ls) = ls := by
  intro ls
  induction ls with
  | nil => intro h; cases h rfl
  | cons l ls2 ih =>
    intro _ hno
    cases ls2 with
    | nil => exact splitNl_of_noNl l (hno l (List.mem_cons_self l []))
    | cons l2 ls3 =>
      rw [show joinNl (l :: l2 :: ls3) = l ++ '\n' :: joinNl (l2 :: ls3) from rfl]
      rw [splitNl_append_nl _ _ (hno l (List.mem_cons_self l (l2 :: ls3)))]
      rw [ih (by simp) (fun x hx => hno x (List.mem_cons_of_mem _ hx))]

theorem splitNl_limitLines_le (cs : List Char) (n : Nat) (hn : 0 < n) :
    (splitNl (limitLines n cs)).length ≤ n := by
  unfold limitLines
  by_cases h : (splitNl cs).length > n
  · rw [if_pos h]
    have htake : (splitNl cs).take n ≠ [] := by
      cases hsp : splitNl cs with
      | nil => exact absurd hsp (splitNl_ne_nil cs)
      | cons a t =>
        cases n with
        | zero => omega
        | succ m => simp [List.take]
    rw [splitNl_joinNl _ htake
      (fun l hl => noNl_mem_splitNl cs l (List.take_subset _ _ hl))]
    simp [List.length_take]
  · rw [if_neg h]
    omega

theorem limitLines_id_of_le (cs : List Char) (n : Nat)
    (h : (splitNl cs).length ≤ n) : limitLines n cs = cs := by
  unfold limitLines
  rw [if_neg (by omega)]

theorem limit7_limit2 (cs : List Char) :
    limitLines 7 (limitLines 2 cs) = limitLines 2 cs :=
  limitLines_id_of_le _ _
    (le_trans (splitNl_limitLines_le cs 2 (by norm_num)) (by norm_num))

/-- C8: while the "same as" toggle is checked, every input to the source
address copies its value into the destination (after both run through the
shared limit/uppercase listeners they hold the same text) and the
destination is disabled; unchecking re-enables the destination without
altering its value. -/
theorem sameAs_mirroring :
    (∀ st raw, st.sameAs = true →
      (sourceInput raw st).q3a = (sourceInput raw st).q2 ∧
      (sourceInput raw st).q3aDisabled = true) ∧
    (∀ st, (toggleSameAs false st).q3aDisabled = false ∧
      (toggleSameAs false st).q3a = st.q3a) := by
  constructor
  · intro st raw hchk
    simp [sourceInput, syncAddress, hchk, limit7_limit2]
  · intro st
    simp [toggleSameAs, syncAddress]

/-- Witness for C8 at the spec's concrete scenario 4. -/
theorem sameAs_mirroring_witness :
    (sourceInput "123 MAIN ST".data ⟨true, [], [], false⟩).q3a =
      (sourceInput "123 MAIN ST".data ⟨true, [], [], false⟩).q2 ∧
    (sourceInput "123 MAIN ST".data ⟨true, [], [], false⟩).q3aDisabled = true :=
  sameAs_mirroring.1 ⟨true, [], [], false⟩ "123 MAIN ST".data rfl

/-- C2 counterexample: on a form whose certification-date control holds a
non-empty value equal to today, `serializeForm` with
`includeDefaults = true` still omits `certificationDate` — the
`includeDefaults` flag is never consulted for that field. -/
theorem serialize_certDate_today_cex :
    (serializeForm
        [⟨"certificationDate", "date", "INPUT", "2026-01-02", false, false⟩]
        ⟨false, true, ""⟩ "2026-01-02" true).any
      (fun p => p.1 = "certificationDate") = false := rfl

/-- C2 amended: for both values of `includeDefaults`, `serializeForm`
emits the `certificationDate` key only when the date control's value is
non-empty and different from today (and then with that raw value);
`includeDefaults` only affects the `q3a_sameAs2` checkbox. -/
theorem serialize_certDate_never_today (form : Form) (sig : SigState)
    (today : String) (incl : Bool)
    (hform : ∀ c ∈ form, c.name = "certificationDate" → c.etype = "date") :
    ∀ v, ("certificationDate", v) ∈ serializeForm form sig today incl →
      ∃ c, c ∈ form ∧ c.name = "certificationDate" ∧ v = .str c.value ∧
        c.value ≠ "" ∧ c.value ≠ today := by
  intro v hv
  rcases serializeForm_mem form sig today incl _ v hv with hw | ⟨hsig, _⟩
  · rcases hw with ⟨el, helf, hname, hcase⟩
    have hd : el.etype = "date" := hform el helf hname
    rcases hcase with ⟨hcb, _⟩ | ⟨hr, _⟩ | ⟨ht, _⟩ | ⟨_, hv', hne, hnt⟩ |
      ⟨_, _, _, _, _, hnd, _⟩
    · rw [hd] at hcb; simp at hcb
    · rw [hd] at hr; simp at hr
    · rcases ht with h | h | h <;> (rw [hd] at h; simp at h)
    · exact ⟨el, helf, hname, hv', hne, hnt hname⟩
    · exact absurd hd hnd
  · simp at hsig

theorem namedItem_proj (f : Form) (a : String) :
    (namedItem f a).map (fun c => (c.name, c.etype)) =
      (f.map (fun c => (c.name, c.etype))).filter (fun q => q.1 = a) := by
  unfold namedItem
  rw [List.filter_map]
  rfl

theorem textSafeKey_eq_of_proj (f g : Form)
    (hp : f.map (fun c => (c.name, c.etype)) = g.map (fun c => (c.name, c.etype)))
    (a : String) : textSafeKey f a = textSafeKey g a := by
  have hni : (namedItem f a).map (fun c => (c.name, c.etype)) =
      (namedItem g a).map (fun c => (c.name, c.etype)) := by
    rw [namedItem_proj, namedItem_proj, hp]
  unfold textSafeKey
  cases hf : namedItem f a with
  | nil =>
    cases hg : namedItem g a with
    | nil => rfl
    | cons e2 t2 => rw [hf, hg] at hni; simp at hni
  | cons e t =>
    cases hg : namedItem g a with
    | nil => rw [hf, hg] at hni; simp at hni
    | cons e2 t2 =>
      rw [hf, hg] at hni
      simp only [List.map_cons, List.cons.injEq, Prod.mk.injEq] at hni
      simp only [hni.1.2]

theorem setFirstValue_proj (f : Form) (k : String) (w : String) :
    (setFirstValue f k w).map (fun c => (c.name, c.etype)) =
      f.map (fun c => (c.name, c.etype)) := by
  induction f with
  | nil => rfl
  | cons c t ih =>
    unfold setFirstValue
    by_cases hc : c.name = k
    · rw [if_pos hc]
      rfl
    · rw [if_neg hc]
      simp only [List.map_cons]
      rw [ih]

/-- C3 counterexample: a snapshot assigning a number to a checkbox group
makes `deserializeForm` call `.includes` on the number — a TypeError that
escapes `deserializeForm` (only `loadStateFromHash`'s try/catch contains
it). -/
theorem deserialize_number_for_group_throws :
    deserializeForm
      [⟨"g", "checkbox", "INPUT", "A", false, false⟩,
       ⟨"g", "checkbox", "INPUT", "B", false, false⟩]
      [("g", JAny.num "1")] = .error () := rfl

/-- C3 amended: `deserializeForm` skips missing controls and the reserved
`signature` key without error, and for keys resolving to non-radio,
non-checkbox controls every value — of any type — is assigned via
best-effort string coercion without throwing; but a value lacking an
`includes` method (a number, `null` or plain object) addressed to a
checkbox group, or any list-typed operation on a lone radio/checkbox
element, throws a TypeError that escapes `deserializeForm`. -/
theorem deserialize_textsafe_ok (form : Form) (data : Snapshot)
    (h : ∀ p ∈ data, textSafeKey form p.1 = true) :
    ∃ form', deserializeForm form data = .ok form' := by
  induction data generalizing form with
  | nil => exact ⟨form, rfl⟩
  | cons p rest ih =>
    obtain ⟨k, v⟩ := p
    have hk := h (k, v) (List.mem_cons_self _ _)
    by_cases hsig : k = "signature"
    · simp only [deserializeForm, deserializeStep, if_pos hsig]
      exact ih form (fun q hq => h q (List.mem_cons_of_mem _ hq))
    · cases hnm : namedItem form k with
      | nil =>
        simp only [deserializeForm, deserializeStep, if_neg hsig, hnm]
        exact ih form (fun q hq => h q (List.mem_cons_of_mem _ hq))
      | cons el others =>
        have hcond : el.etype ≠ "radio" ∧ el.etype ≠ "checkbox" := by
          simp only [textSafeKey, Bool.or_eq_true, decide_eq_true_eq] at hk
          rcases hk with hs | hmatch
          · exact absurd hs hsig
          · rw [hnm] at hmatch
            simp only [Bool.and_eq_true, Bool.not_eq_true',
              decide_eq_false_iff_not] at hmatch
            exact hmatch
        simp only [deserializeForm, deserializeStep, if_neg hsig, hnm,
          if_neg hcond.1, if_neg hcond.2]
        apply ih
        intro q hq
        rw [textSafeKey_eq_of_proj _ form (setFirstValue_proj form k _) q.1]
        exact h q (List.mem_cons_of_mem _ hq)

/-- Witness for C3's amended theorem: a snapshot with a boolean for a text
field, an unknown key, and a null signature deserializes without error. -/
theorem deserialize_textsafe_ok_witness :
    ∃ form', deserializeForm
      [⟨"t", "text", "INPUT", "", false, false⟩]
      [("t", JAny.bool true), ("missing", JAny.num "5"),
       ("signature", JAny.null)] = .ok form' :=
  deserialize_textsafe_ok _ _ (by decide)

theorem textLike_cond (c : Control) (h : textLike c = true) :
    c.etype = "text" ∨ c.etype = "email" ∨ c.etype = "tel" ∨ c.tag = "TEXTAREA" := by
  simp only [textLike, Bool.or_eq_true, Bool.and_eq_true, decide_eq_true_eq] at h
  tauto

theorem applyRel_refl (d : Snapshot) (c : Control) : applyRel d c c :=
  ⟨rfl, rfl, rfl, Or.inl rfl⟩

theorem forall₂_applyRel_refl (d : Snapshot) (l : Form) :
    List.Forall₂ (applyRel d) l l :=
  List.forall₂_same.2 (fun c _ => applyRel_refl d c)

theorem applyRel_comp {d : Snapshot} {a b c : Control}
    (h1 : applyRel d a b) (h2 : applyRel d b c) : applyRel d a c := by
  obtain ⟨hn1, he1, ht1, hv1⟩ := h1
  obtain ⟨hn2, he2, ht2, hv2⟩ := h2
  refine ⟨hn2.trans hn1, he2.trans he1, ht2.trans ht1, ?_⟩
  rcases hv2 with hv2e | ⟨hu2, hd2⟩
  · rcases hv1 with hv1e | ⟨hu1, hd1⟩
    · exact Or.inl (hv2e.trans hv1e)
    · refine Or.inr ⟨?_, ?_⟩
      · intro htl; rw [hv2e]; exact hu1 htl
      · intro hdi
        rcases hd1 hdi with ⟨s, hs, hbs⟩
        exact ⟨s, hs, hv2e.trans hbs⟩
  · refine Or.inr ⟨?_, ?_⟩
    · intro htl
      apply hu2
      unfold textLike
      rw [he1, ht1]
      unfold textLike at htl
      exact htl
    · intro hdi
      rcases hd2 ⟨by rw [he1]; exact hdi.1, by rw [ht1]; exact hdi.2⟩ with ⟨s, hs, hcs⟩
      rw [hn1] at hs
      exact ⟨s, hs, hcs⟩

theorem forall₂_applyRel_trans (d : Snapshot) :
    ∀ {l1 l2 l3 : Form}, List.Forall₂ (applyRel d) l1 l2 →
      List.Forall₂ (applyRel d) l2 l3 → List.Forall₂ (applyRel d) l1 l3 := by
  intro l1 l2 l3 h12
  induction h12 generalizing l3 with
  | nil =>
    intro h
    cases h
    exact List.Forall₂.nil
  | cons hab h ih =>
    intro h23
    cases h23 with
    | cons hbc h2 => exact List.Forall₂.cons (applyRel_comp hab hbc) (ih h2)

theorem forall₂_applyRel_map (d : Snapshot) (g : Control → Control)
    (hg : ∀ c, (g c).name = c.name ∧ (g c).etype = c.etype ∧ (g c).tag = c.tag ∧
      (g c).value = c.value) :
    ∀ l : Form, List.Forall₂ (applyRel d) l (l.map g) := by
  intro l
  induction l with
  | nil => exact List.Forall₂.nil
  | cons c t ih =>
    exact List.Forall₂.cons
      ⟨(hg c).1, (hg c).2.1, (hg c).2.2.1, Or.inl (hg c).2.2.2⟩ ih

theorem setFirstValue_rel (d : Snapshot) (k w : String) :
    ∀ form : Form,
      (∀ c : Control, (namedItem form k).head? = some c →
        (textLike c = true → w = jsUpper w) ∧
        (c.etype = "date" ∧ c.tag = "INPUT" →
          ∃ s, (c.name, JAny.str s) ∈ d ∧ w = s)) →
      List.Forall₂ (applyRel d) form (setFirstValue form k w) := by
  intro form
  induction form with
  | nil => intro _; exact List.Forall₂.nil
  | cons c t ih =>
    intro hW
    unfold setFirstValue
    by_cases hc : c.name = k
    · rw [if_pos hc]
      have hWc := hW c (by
        unfold namedItem
        rw [List.filter_cons_of_pos (by simpa using hc)]
        rfl)
      refine List.Forall₂.cons ⟨rfl, rfl, rfl, Or.inr ⟨?_, ?_⟩⟩
        (forall₂_applyRel_refl d t)
      · intro htl
        exact hWc.1 htl
      · intro hdi
        exact hWc.2 hdi
    · rw [if_neg hc]
      refine List.Forall₂.cons (applyRel_refl d c) (ih ?_)
      intro c2 hc2
      apply hW
      unfold namedItem
      rw [List.filter_cons_of_neg (by simpa using hc)]
      exact hc2

theorem deserializeStep_rel (data₀ : Snapshot) (form : Form) (k : String)
    (v : JAny) (hmem : (k, v) ∈ data₀) (hstr : ∃ s, v = JAny.str s) (f₂ : Form)
    (hstep : deserializeStep form k v = .ok f₂) :
    List.Forall₂ (applyRel data₀) form f₂ := by
  obtain ⟨s, rfl⟩ := hstr
  by_cases hsig : k = "signature"
  · simp only [deserializeStep, if_pos hsig, Except.ok.injEq] at hstep
    rw [← hstep]
    exact forall₂_applyRel_refl data₀ form
  cases hnm : namedItem form k with
  | nil =>
    simp only [deserializeStep, if_neg hsig, hnm, Except.ok.injEq] at hstep
    rw [← hstep]
    exact forall₂_applyRel_refl data₀ form
  | cons el others =>
    simp only [deserializeStep, if_neg hsig, hnm] at hstep
    have helk : el.name = k := by
      have : el ∈ namedItem form k := by
        rw [hnm]; exact List.mem_cons_self el others
      simpa using List.of_mem_filter this
    by_cases hr : el.etype = "radio"
    · rw [if_pos hr] at hstep
      cases others with
      | nil => simp at hstep
      | cons o os =>
        simp only [Except.ok.injEq] at hstep
        rw [← hstep]
        unfold setRadioChecked
        apply forall₂_applyRel_map
        intro c
        by_cases hcn : c.name = k
        · rw [if_pos hcn]
          exact ⟨rfl, rfl, rfl, rfl⟩
        · rw [if_neg hcn]
          exact ⟨rfl, rfl, rfl, rfl⟩
    rw [if_neg hr] at hstep
    by_cases hcb : el.etype = "checkbox"
    · rw [if_pos hcb] at hstep
      cases others with
      | nil => simp at hstep
      | cons o os =>
        simp only [hasIncludesMethod, reduceIte, Except.ok.injEq] at hstep
        rw [← hstep]
        unfold setGroupChecked
        apply forall₂_applyRel_map
        intro c
        by_cases hcn : c.name = k
        · rw [if_pos hcn]
          exact ⟨rfl, rfl, rfl, rfl⟩
        · rw [if_neg hcn]
          exact ⟨rfl, rfl, rfl, rfl⟩
    rw [if_neg hcb] at hstep
    simp only [Except.ok.injEq] at hstep
    rw [← hstep]
    apply setFirstValue_rel
    intro c hhead
    rw [hnm] at hhead
    simp only [List.head?_cons, Option.some.injEq] at hhead
    rw [← hhead]
    constructor
    · intro htl
      have hcond : el.etype = "text" ∨ el.etype = "email" ∨ el.etype = "tel" ∨
          el.tag = "TEXTAREA" := textLike_cond el htl
      rw [if_pos hcond, jsUpper_idem]
    · rintro ⟨hdate, htag⟩
      have hcond : ¬(el.etype = "text" ∨ el.etype = "email" ∨ el.etype = "tel" ∨
          el.tag = "TEXTAREA") := by
        rw [hdate, htag]
        rintro (h | h | h | h) <;> simp at h
      rw [if_neg hcond]
      exact ⟨s, by rw [helk]; exact hmem, rfl⟩

theorem deserializeForm_rel (data₀ : Snapshot)
    (hstr : ∀ p ∈ data₀, ∃ s, p.2 = JAny.str s) :
    ∀ data form form', (∀ p ∈ data, p ∈ data₀) →
      deserializeForm form data = .ok form' →
      List.Forall₂ (applyRel data₀) form form' := by
  intro data
  induction data with
  | nil =>
    intro form form' _ h
    simp only [deserializeForm, Except.ok.injEq] at h
    rw [← h]
    exact forall₂_applyRel_refl data₀ form
  | cons p rest ih =>
    intro form form' hsub h
    obtain ⟨k, v⟩ := p
    simp only [deserializeForm] at h
    cases hstep : deserializeStep form k v with
    | error e =>
      rw [hstep] at h
      cases h
    | ok f₂ =>
      rw [hstep] at h
      have hk : (k, v) ∈ data₀ := hsub _ (List.mem_cons_self _ _)
      have hrel1 := deserializeStep_rel data₀ form k v hk (hstr _ hk) f₂ hstep
      have hrel2 := ih f₂ form' (fun q hq => hsub q (List.mem_cons_of_mem _ hq)) h
      exact forall₂_applyRel_trans data₀ hrel1 hrel2

/-- C4: the uppercase invariant.  (i) Every string `serializeForm` emits
under a key all of whose controls are text-like is upper-case invariant;
(ii) every string it emits under a key all of whose controls are date
inputs is the raw control value, untransformed; (iii) after
`deserializeForm` of an all-string snapshot, every control keeps its
name/type/tag, and a control whose value was written holds an upper-case
invariant value if it is text-like, and the raw snapshot string if it is a
date input. -/
theorem uppercase_normalization_invariant :
    (∀ form sig today incl k s, k ≠ "signature" →
      (∀ c ∈ form, c.name = k → textLike c = true) →
      (k, JAny.str s) ∈ serializeForm form sig today incl → s = jsUpper s) ∧
    (∀ form sig today incl k s, k ≠ "signature" →
      (∀ c ∈ form, c.name = k → c.etype = "date") →
      (k, JAny.str s) ∈ serializeForm form sig today incl →
      ∃ c, c ∈ form ∧ c.name = k ∧ c.value = s) ∧
    (∀ data form form', (∀ p ∈ data, ∃ s, p.2 = JAny.str s) →
      deserializeForm form data = .ok form' →
      List.Forall₂ (applyRel data) form form') := by
  refine ⟨?_, ?_, ?_⟩
  · intro form sig today incl k s hk hform h
    rcases serializeForm_mem form sig today incl _ _ h with hw | ⟨hsig, _⟩
    · rcases hw with ⟨el, helf, hname, hcase⟩
      have htl : textLike el = true := hform el helf hname
      rcases hcase with ⟨hcb, _⟩ | ⟨hr, hv'⟩ | ⟨ht, hv'⟩ | ⟨hdte, _⟩ |
        ⟨_, _, hne3, hne4, hne5, _, hlast⟩
      · simp [textLike, hcb] at htl
      · simp [textLike, hr] at htl
      · injection hv' with hsv
        rw [hsv]
        exact (jsUpper_idem _).symm
      · simp [textLike, hdte] at htl
      · rcases hlast with ⟨_, hv'⟩ | ⟨hnta, _⟩
        · injection hv' with hsv
          rw [hsv]
          exact (jsUpper_idem _).symm
        · simp only [textLike, Bool.or_eq_true, Bool.and_eq_true,
            decide_eq_true_eq] at htl
          rcases htl with ((h1 | h1) | h1) | ⟨h1, h2⟩
          · exact absurd h1 hne3
          · exact absurd h1 hne4
          · exact absurd h1 hne5
          · exact absurd h2 hnta
    · exact absurd hsig hk
  · intro form sig today incl k s hk hform h
    rcases serializeForm_mem form sig today incl _ _ h with hw | ⟨hsig, _⟩
    · rcases hw with ⟨el, helf, hname, hcase⟩
      have hd : el.etype = "date" := hform el helf hname
      rcases hcase with ⟨hcb, _⟩ | ⟨hr, hv'⟩ | ⟨ht, _⟩ | ⟨_, hv', _, _⟩ |
        ⟨_, _, _, _, _, hnd, _⟩
      · rw [hd] at hcb; simp at hcb
      · injection hv' with hsv
        exact ⟨el, helf, hname, hsv.symm⟩
      · rcases ht with h1 | h1 | h1 <;> (rw [hd] at h1; simp at h1)
      · injection hv' with hsv
        exact ⟨el, helf, hname, hsv.symm⟩
      · exact absurd hd hnd
    · exact absurd hsig hk
  · intro data form form' hstr h
    exact deserializeForm_rel data hstr data form form' (fun q hq => hq) h

/-- Witness for C4 at a one-field text form: deserializing a lower-case
string writes its upper-cased form. -/
theorem uppercase_normalization_invariant_witness :
    List.Forall₂ (applyRel [("t", JAny.str "ab")])
      [⟨"t", "text", "INPUT", "", false, false⟩]
      [⟨"t", "text", "INPUT", "AB", false, false⟩] :=
  uppercase_normalization_invariant.2.2 [("t", JAny.str "ab")]
    [⟨"t", "text", "INPUT", "", false, false⟩]
    [⟨"t", "text", "INPUT", "AB", false, false⟩]
    (by
      intro p hp
      rcases List.mem_singleton.1 hp with rfl
      exact ⟨"ab", rfl⟩)
    rfl

theorem skipWs_cons (c : Char) (r : List Char) (h : isJsonWs c = false) :
    skipWs (c :: r) = c :: r := by
  unfold skipWs
  rw [List.dropWhile_cons, h]
  simp

theorem string_mk_data (s : String) : String.mk s.data = s := by cases s; rfl

theorem hexVal_hexDig : ∀ n, n < 16 → hexVal (hexDig n) = some n := by decide

theorem parseStringBody_esc :
    ∀ (cs rest : List Char),
      parseStringBody (escString cs ++ '"' :: rest) = some (cs, rest) := by
  intro cs
  induction cs with
  | nil =>
    intro rest
    have h0 : escString [] ++ '"' :: rest = '"' :: rest := by simp [escString]
    rw [h0, parseStringBody.eq_def]
    simp
  | cons c t ih =>
    intro rest
    have hesc : escString (c :: t) ++ '"' :: rest =
        escapeChar c ++ (escString t ++ '"' :: rest) := by
      simp [escString, List.append_assoc]
    rw [hesc]
    unfold escapeChar
    by_cases h1 : c = '"'
    · rw [if_pos h1]
      rw [parseStringBody.eq_def]
      simp [ih, h1]
    rw [if_neg h1]
    by_cases h2 : c = '\\'
    · rw [if_pos h2]
      rw [parseStringBody.eq_def]
      simp [ih, h2]
    rw [if_neg h2]
    by_cases h3 : c.toNat = 8
    · rw [if_pos h3]
      have hc : c = Char.ofNat 8 := by rw [← Char.ofNat_toNat c, h3]
      rw [parseStringBody.eq_def]
      simp [ih, hc]
    rw [if_neg h3]
    by_cases h4 : c.toNat = 9
    · rw [if_pos h4]
      have hc : c = Char.ofNat 9 := by rw [← Char.ofNat_toNat c, h4]
      rw [parseStringBody.eq_def]
      simp [ih, hc]
    rw [if_neg h4]
    by_cases h5 : c.toNat = 10
    · rw [if_pos h5]
      have hc : c = Char.ofNat 10 := by rw [← Char.ofNat_toNat c, h5]
      rw [parseStringBody.eq_def]
      simp [ih, hc]
    rw [if_neg h5]
    by_cases h6 : c.toNat = 12
    · rw [if_pos h6]
      have hc : c = Char.ofNat 12 := by rw [← Char.ofNat_toNat c, h6]
      rw [parseStringBody.eq_def]
      simp [ih, hc]
    rw [if_neg h6]
    by_cases h7 : c.toNat = 13
    · rw [if_pos h7]
      have hc : c = Char.ofNat 13 := by rw [← Char.ofNat_toNat c, h7]
      rw [parseStringBody.eq_def]
      simp [ih, hc]
    rw [if_neg h7]
    by_cases h8 : c.toNat < 32
    · rw [if_pos h8]
      have hhi := hexVal_hexDig (c.toNat / 16) (by omega)
      have hlo := hexVal_hexDig (c.toNat % 16) (by omega)
      have harith : 4096 * 0 + 256 * 0 + 16 * (c.toNat / 16) + c.toNat % 16
          = c.toNat := by omega
      have harith2 : 16 * (c.toNat / 16) + c.toNat % 16 = c.toNat := by omega
      have h00 : hexVal '0' = some 0 := by decide
      rw [parseStringBody.eq_def]
      simp [hhi, hlo, h00, ih, harith, harith2, Char.ofNat_toNat]
    · rw [if_neg h8]
      simp only [List.cons_append, List.nil_append]
      rw [parseStringBody.eq_def]
      simp only [if_neg h1, if_neg h2, if_neg h8]
      rw [ih]
      rfl

theorem parseValue_str (f : Nat) (s : String) (rest : List Char) :
    parseValue (f + 1) (stringifyStr s ++ rest) = some (.str s, rest) := by
  have hshape : stringifyStr s ++ rest = '"' :: (escString s.data ++ '"' :: rest) := by
    simp [stringifyStr]
  have hws : skipWs ('"' :: (escString s.data ++ '"' :: rest)) =
      '"' :: (escString s.data ++ '"' :: rest) := skipWs_cons _ _ (by decide)
  rw [hshape, parseValue.eq_def]
  simp [hws, parseStringBody_esc, string_mk_data]

theorem parseValue_true (f : Nat) (rest : List Char) :
    parseValue (f + 1) (stringifyJ (.bool true) ++ rest) = some (.bool true, rest) := by
  have hws : skipWs ('t' :: 'r' :: 'u' :: 'e' :: rest) =
      't' :: 'r' :: 'u' :: 'e' :: rest := skipWs_cons _ _ (by decide)
  have hpre : (['t', 'r', 'u', 'e'] : List Char).isPrefixOf
      ('t' :: 'r' :: 'u' :: 'e' :: rest) = true := by
    rw [List.isPrefixOf_iff_prefix]
    exact List.prefix_append _ _
  rw [show stringifyJ (.bool true) ++ rest = 't' :: 'r' :: 'u' :: 'e' :: rest from rfl]
  rw [parseValue.eq_def]
  simp [hws, hpre, lbrace]

theorem parseValue_false (f : Nat) (rest : List Char) :
    parseValue (f + 1) (stringifyJ (.bool false) ++ rest) = some (.bool false, rest) := by
  have hws : skipWs ('f' :: 'a' :: 'l' :: 's' :: 'e' :: rest) =
      'f' :: 'a' :: 'l' :: 's' :: 'e' :: rest := skipWs_cons _ _ (by decide)
  have hpre : (['f', 'a', 'l', 's', 'e'] : List Char).isPrefixOf
      ('f' :: 'a' :: 'l' :: 's' :: 'e' :: rest) = true := by
    rw [List.isPrefixOf_iff_prefix]
    exact List.prefix_append _ _
  rw [show stringifyJ (.bool false) ++ rest = 'f' :: 'a' :: 'l' :: 's' :: 'e' :: rest
    from rfl]
  rw [parseValue.eq_def]
  simp [hws, hpre, lbrace]

theorem stringifyArr_cons (x : JAny) (xs : List JAny) :
    stringifyArr (x :: xs) = stringifyJ x ++
      (match xs with | [] => ([] : List Char) | _ => ',' :: stringifyArr xs) := by
  cases xs <;> simp [stringifyArr]

theorem parseElems_strs :
    ∀ (l : List JAny), l ≠ [] → (∀ y ∈ l, ∃ t : String, y = JAny.str t) →
      ∀ (f : Nat) (rest : List Char),
        parseElems (l.length + f + 1) (stringifyArr l ++ ']' :: rest)
          = some (l, rest) := by
  intro l
  induction l with
  | nil => intro h; cases h rfl
  | cons x xs ih =>
    intro _ hstr f rest
    obtain ⟨t, rfl⟩ := hstr x (List.mem_cons_self x xs)
    cases xs with
    | nil =>
      rw [show ([JAny.str t].length + f + 1) = (f + 1) + 1 by
        simp only [List.length_singleton]; omega]
      rw [show stringifyArr [JAny.str t] ++ ']' :: rest
          = stringifyStr t ++ ']' :: rest from by simp [stringifyArr, stringifyJ]]
      rw [parseElems.eq_def]
      have hws := skipWs_cons ']' rest (by decide)
      simp [parseValue_str, hws]
    | cons y ys =>
      have hshape : stringifyArr (JAny.str t :: y :: ys) ++ ']' :: rest =
          stringifyStr t ++ (',' :: (stringifyArr (y :: ys) ++ ']' :: rest)) := by
        simp [stringifyArr, stringifyJ, List.append_assoc]
      rw [hshape]
      rw [show ((JAny.str t :: y :: ys).length + f + 1)
          = (((y :: ys).length + f) + 1) + 1 by
        simp only [List.length_cons]; omega]
      rw [parseElems.eq_def]
      have hws := skipWs_cons ',' (stringifyArr (y :: ys) ++ ']' :: rest) (by decide)
      have hih := ih (by simp) (fun y2 hy2 => hstr y2 (List.mem_cons_of_mem _ hy2)) f rest
      simp only [List.length_cons] at hih ⊢
      simp [parseValue_str, hws, hih]

theorem parseValue_model :
    ∀ (v : JAny), valueOk v = true → ∀ (f : Nat) (rest : List Char),
      parseValue (vfuel v + f + 1) (stringifyJ v ++ rest) = some (v, rest) := by
  intro v hok f rest
  cases v with
  | str s =>
    rw [show vfuel (JAny.str s) + f + 1 = f + 1 by simp [vfuel]]
    rw [show stringifyJ (JAny.str s) = stringifyStr s from by simp [stringifyJ]]
    exact parseValue_str f s rest
  | bool b =>
    rw [show vfuel (JAny.bool b) + f + 1 = f + 1 by simp [vfuel]]
    cases b
    · exact parseValue_false f rest
    · exact parseValue_true f rest
  | num lexeme => simp [valueOk] at hok
  | null => simp [valueOk] at hok
  | obj entries => simp [valueOk] at hok
  | arr xs =>
    have hstr : ∀ y ∈ xs, ∃ u : String, y = JAny.str u := by
      intro y hy
      have hm := List.all_eq_true.1 (by simpa [valueOk] using hok) y hy
      cases y with
      | str u => exact ⟨u, rfl⟩
      | bool b => simp at hm
      | num s2 => simp at hm
      | null => simp at hm
      | arr l2 => simp at hm
      | obj o2 => simp at hm
    cases xs with
    | nil =>
      rw [show stringifyJ (JAny.arr []) ++ rest = '[' :: ']' :: rest from by
        simp [stringifyJ, stringifyArr]]
      rw [show vfuel (JAny.arr []) + f + 1 = (f + 1) + 1 by simp [vfuel]; omega]
      rw [parseValue.eq_def]
      have hws1 := skipWs_cons '[' (']' :: rest) (by decide)
      have hws2 := skipWs_cons ']' rest (by decide)
      simp [hws1, hws2, lbrace]
    | cons x xs' =>
      obtain ⟨t, rfl⟩ := hstr x (List.mem_cons_self x xs')
      obtain ⟨tl, htl⟩ : ∃ tl, stringifyArr (JAny.str t :: xs') ++ ']' :: rest
          = '"' :: tl := by
        cases xs' with
        | nil =>
          refine ⟨escString t.data ++ '"' :: ']' :: rest, ?_⟩
          simp [stringifyArr, stringifyJ, stringifyStr]
        | cons z zs =>
          refine ⟨escString t.data ++ '"' ::
            (',' :: (stringifyArr (z :: zs) ++ ']' :: rest)), ?_⟩
          simp [stringifyArr, stringifyJ, stringifyStr]
      rw [show stringifyJ (JAny.arr (JAny.str t :: xs')) ++ rest =
          '[' :: (stringifyArr (JAny.str t :: xs') ++ ']' :: rest) from by
        simp [stringifyJ]]
      rw [show vfuel (JAny.arr (JAny.str t :: xs')) + f + 1
          = (((JAny.str t :: xs').length + f) + 1) + 1 by simp [vfuel]; omega]
      rw [htl, parseValue.eq_def]
      have hws1 := skipWs_cons '[' ('"' :: tl) (by decide)
      have hws2 := skipWs_cons '"' tl (by decide)
      have helems := parseElems_strs (JAny.str t :: xs') (by simp) hstr f rest
      rw [htl] at helems
      simp only [List.length_cons] at helems ⊢
      simp [hws1, hws2, lbrace, helems]

theorem memFuel_pos (l : Snapshot) : 1 ≤ memFuel l := by
  cases l with
  | nil => simp [memFuel]
  | cons p rest =>
    obtain ⟨k, v⟩ := p
    simp only [memFuel]
    omega

theorem snapshotOk_head (k : String) (v : JAny) (l2 : Snapshot)
    (hok : snapshotOk ((k, v) :: l2) = true) :
    valueOk v = true ∧ latin1 k = true ∧ snapshotOk l2 = true := by
  simp only [snapshotOk, List.all_cons, Bool.and_eq_true] at hok
  exact ⟨hok.1.2, hok.1.1, hok.2⟩

theorem parseMembers_model :
    ∀ (l : Snapshot), l ≠ [] → snapshotOk l = true →
      ∀ (f : Nat) (rest : List Char),
        parseMembers (memFuel l + f) (stringifyMembers l ++ rbrace :: rest)
          = some (l, rest) := by
  intro l
  induction l with
  | nil => intro h; cases h rfl
  | cons p l2 ih =>
    obtain ⟨k, v⟩ := p
    intro _ hok f rest
    obtain ⟨hokv, _, hok2⟩ := snapshotOk_head k v l2 hok
    cases l2 with
    | nil =>
      rw [show memFuel [(k, v)] + f = (vfuel v + f + 1) + 1 from by
        simp only [memFuel]; omega]
      rw [show stringifyMembers [(k, v)] ++ rbrace :: rest =
          '"' :: (escString k.data ++ '"' ::
            (':' :: (stringifyJ v ++ rbrace :: rest))) from by
        simp [stringifyMembers, stringifyStr]]
      rw [parseMembers.eq_def]
      have hws1 := skipWs_cons '"'
        (escString k.data ++ '"' :: (':' :: (stringifyJ v ++ rbrace :: rest)))
        (by decide)
      have hesc := parseStringBody_esc k.data
        (':' :: (stringifyJ v ++ rbrace :: rest))
      have hws2 := skipWs_cons ':' (stringifyJ v ++ rbrace :: rest) (by decide)
      have hval := parseValue_model v hokv f (rbrace :: rest)
      have hws3 := skipWs_cons rbrace rest (by decide)
      simp [hws1, hesc, hws2, hval, hws3, string_mk_data]
    | cons p2 l3 =>
      have hpos := memFuel_pos (p2 :: l3)
      rw [show memFuel ((k, v) :: p2 :: l3) + f
          = (vfuel v + (memFuel (p2 :: l3) + f - 1) + 1) + 1 from by
        simp only [memFuel]; omega]
      rw [show stringifyMembers ((k, v) :: p2 :: l3) ++ rbrace :: rest =
          '"' :: (escString k.data ++ '"' ::
            (':' :: (stringifyJ v ++
              (',' :: (stringifyMembers (p2 :: l3) ++ rbrace :: rest))))) from by
        simp [stringifyMembers, stringifyStr]]
      rw [parseMembers.eq_def]
      have hws1 := skipWs_cons '"'
        (escString k.data ++ '"' ::
          (':' :: (stringifyJ v ++
            (',' :: (stringifyMembers (p2 :: l3) ++ rbrace :: rest)))))
        (by decide)
      have hesc := parseStringBody_esc k.data
        (':' :: (stringifyJ v ++
          (',' :: (stringifyMembers (p2 :: l3) ++ rbrace :: rest))))
      have hws2 := skipWs_cons ':'
        (stringifyJ v ++ (',' :: (stringifyMembers (p2 :: l3) ++ rbrace :: rest)))
        (by decide)
      have hval := parseValue_model v hokv (memFuel (p2 :: l3) + f - 1)
        (',' :: (stringifyMembers (p2 :: l3) ++ rbrace :: rest))
      have hws4 := skipWs_cons ','
        (stringifyMembers (p2 :: l3) ++ rbrace :: rest) (by decide)
      have hih : parseMembers (vfuel v + (memFuel (p2 :: l3) + f - 1) + 1)
          (stringifyMembers (p2 :: l3) ++ rbrace :: rest)
          = some (p2 :: l3, rest) := by
        rw [show vfuel v + (memFuel (p2 :: l3) + f - 1) + 1
            = memFuel (p2 :: l3) + (vfuel v + f) from by omega]
        exact ih (by simp) hok2 (vfuel v + f) rest
      have hne1 : ¬(',' = rbrace) := by decide
      simp [hws1, hesc, hws2, hval, hws4, hih, string_mk_data, hne1]

theorem parseValue_obj (l : Snapshot) (hok : snapshotOk l = true) (f : Nat)
    (rest : List Char) :
    parseValue (memFuel l + f + 1) (stringifyJ (.obj l) ++ rest)
      = some (.obj l, rest) := by
  cases l with
  | nil =>
    rw [show stringifyJ (JAny.obj []) ++ rest = lbrace :: rbrace :: rest from by
      simp [stringifyJ, stringifyMembers]]
    rw [show memFuel [] + f + 1 = (f + 1) + 1 from by simp only [memFuel]; omega]
    rw [parseValue.eq_def]
    have hws1 := skipWs_cons lbrace (rbrace :: rest) (by decide)
    have hws2 := skipWs_cons rbrace rest (by decide)
    have hq : ¬(lbrace = '"') := by decide
    simp [hws1, hws2, hq]
  | cons p l2 =>
    obtain ⟨k, v⟩ := p
    rw [show stringifyJ (JAny.obj ((k, v) :: l2)) ++ rest =
        lbrace :: (stringifyMembers ((k, v) :: l2) ++ rbrace :: rest) from by
      simp [stringifyJ]]
    rw [show memFuel ((k, v) :: l2) + f + 1 = (memFuel ((k, v) :: l2) + f) + 1
      from rfl]
    rw [parseValue.eq_def]
    obtain ⟨tl, htl⟩ : ∃ tl, stringifyMembers ((k, v) :: l2) ++ rbrace :: rest
        = '"' :: tl := by
      cases l2 with
      | nil =>
        refine ⟨escString k.data ++ '"' ::
          (':' :: (stringifyJ v ++ rbrace :: rest)), ?_⟩
        simp [stringifyMembers, stringifyStr]
      | cons p2 l3 =>
        refine ⟨escString k.data ++ '"' ::
          (':' :: (stringifyJ v ++
            (',' :: (stringifyMembers (p2 :: l3) ++ rbrace :: rest)))), ?_⟩
        simp [stringifyMembers, stringifyStr]
    rw [htl]
    have hws1 := skipWs_cons lbrace ('"' :: tl) (by decide)
    have hws2 := skipWs_cons '"' tl (by decide)
    have hq : ¬(lbrace = '"') := by decide
    have hq2 : ¬('"' = rbrace) := by decide
    have hmem := parseMembers_model ((k, v) :: l2) (by simp) hok f rest
    rw [htl] at hmem
    simp [hws1, hws2, hq, hq2, hmem]

theorem valueOk_arr_strs (xs : List JAny) (h : valueOk (.arr xs) = true) :
    ∀ y ∈ xs, ∃ t : String, y = JAny.str t := by
  intro y hy
  have hm := List.all_eq_true.1 (by simpa [valueOk] using h) y hy
  cases y with
  | str u => exact ⟨u, rfl⟩
  | bool b => simp at hm
  | num s2 => simp at hm
  | null => simp at hm
  | arr l2 => simp at hm
  | obj o2 => simp at hm

theorem stringifyStr_length (s : String) : 2 ≤ (stringifyStr s).length := by
  simp [stringifyStr]

theorem stringifyArr_strs_length (xs : List JAny)
    (h : ∀ y ∈ xs, ∃ t : String, y = JAny.str t) :
    xs.length ≤ (stringifyArr xs).length + 1 := by
  induction xs with
  | nil => simp [stringifyArr]
  | cons x xs2 ih =>
    obtain ⟨t, rfl⟩ := h x (List.mem_cons_self x xs2)
    cases xs2 with
    | nil => simp [stringifyArr]
    | cons y ys =>
      have hih := ih (fun y2 hy2 => h y2 (List.mem_cons_of_mem _ hy2))
      have hlen := stringifyStr_length t
      rw [show stringifyArr (JAny.str t :: y :: ys)
          = stringifyStr t ++ ',' :: stringifyArr (y :: ys) from by
        simp [stringifyArr, stringifyJ]]
      simp only [List.length_append, List.length_cons]
      simp only [List.length_cons] at hih
      omega

theorem vfuel_le_length (v : JAny) (h : valueOk v = true) :
    vfuel v ≤ (stringifyJ v).length := by
  cases v with
  | str s => simp [vfuel]
  | bool b => simp [vfuel]
  | num lexeme => simp [valueOk] at h
  | null => simp [valueOk] at h
  | obj entries => simp [valueOk] at h
  | arr xs =>
    have hb := stringifyArr_strs_length xs (valueOk_arr_strs xs h)
    rw [show stringifyJ (JAny.arr xs) = '[' :: stringifyArr xs ++ [']'] from by
      simp [stringifyJ]]
    simp only [vfuel, List.length_cons, List.length_append, List.length_singleton]
    omega

theorem memFuel_le_length (l : Snapshot) (hok : snapshotOk l = true) :
    memFuel l ≤ (stringifyMembers l).length + 2 := by
  induction l with
  | nil => simp [memFuel, stringifyMembers]
  | cons p l2 ih =>
    obtain ⟨k, v⟩ := p
    obtain ⟨hokv, _, hok2⟩ := snapshotOk_head k v l2 hok
    have hv := vfuel_le_length v hokv
    cases l2 with
    | nil =>
      rw [show stringifyMembers [(k, v)] = stringifyStr k ++ ':' :: stringifyJ v
        from by simp [stringifyMembers]]
      simp only [memFuel, List.length_append, List.length_cons]
      omega
    | cons p2 l3 =>
      have hih := ih hok2
      have hexp : memFuel ((k, v) :: p2 :: l3) = vfuel v + 1 + memFuel (p2 :: l3) := by
        rw [memFuel]
      rw [show stringifyMembers ((k, v) :: p2 :: l3)
          = stringifyStr k ++ ':' :: stringifyJ v ++
            ',' :: stringifyMembers (p2 :: l3) from by simp [stringifyMembers]]
      rw [hexp]
      simp only [List.length_append, List.length_cons]
      omega

theorem hexDig_lt (n : Nat) : (hexDig n).toNat < 256 := by
  by_cases h : n < 16
  · have hall : ∀ m, m < 16 → (hexDig m).toNat < 256 := by decide
    exact hall n h
  · unfold hexDig
    rw [List.getD_eq_default _ _ (by simp [hexDigits]; omega)]
    decide

theorem escapeChar_latin1 (c : Char) (hc : c.toNat < 256) :
    ∀ d ∈ escapeChar c, d.toNat < 256 := by
  intro d hd
  unfold escapeChar at hd
  split at hd
  · rcases List.mem_cons.1 hd with rfl | hd2
    · decide
    · simp at hd2; rw [hd2]; decide
  split at hd
  · rcases List.mem_cons.1 hd with rfl | hd2
    · decide
    · simp at hd2; rw [hd2]; decide
  split at hd
  · rcases List.mem_cons.1 hd with rfl | hd2
    · decide
    · simp at hd2; rw [hd2]; decide
  split at hd
  · rcases List.mem_cons.1 hd with rfl | hd2
    · decide
    · simp at hd2; rw [hd2]; decide
  split at hd
  · rcases List.mem_cons.1 hd with rfl | hd2
    · decide
    · simp at hd2; rw [hd2]; decide
  split at hd
  · rcases List.mem_cons.1 hd with rfl | hd2
    · decide
    · simp at hd2; rw [hd2]; decide
  split at hd
  · rcases List.mem_cons.1 hd with rfl | hd2
    · decide
    · simp at hd2; rw [hd2]; decide
  split at hd
  · simp only [List.mem_cons, List.not_mem_nil, or_false] at hd
    rcases hd with rfl | rfl | rfl | rfl | rfl | rfl
    · decide
    · decide
    · decide
    · decide
    · exact hexDig_lt _
    · exact hexDig_lt _
  · simp only [List.mem_singleton] at hd
    rw [hd]
    exact hc

theorem escString_latin1 (cs : List Char) (h : ∀ c ∈ cs, c.toNat < 256) :
    ∀ d ∈ escString cs, d.toNat < 256 := by
  intro d hd
  unfold escString at hd
  rcases List.mem_flatten.1 hd with ⟨l, hl, hdl⟩
  rcases List.mem_map.1 hl with ⟨c, hc, rfl⟩
  exact escapeChar_latin1 c (h c hc) d hdl

theorem stringifyStr_latin1 (s : String) (h : latin1 s = true) :
    ∀ d ∈ stringifyStr s, d.toNat < 256 := by
  intro d hd
  unfold stringifyStr at hd
  rcases List.mem_cons.1 hd with rfl | hd2
  · decide
  rcases List.mem_append.1 hd2 with hd3 | hd4
  · refine escString_latin1 s.data ?_ d hd3
    intro c hc
    have h2 : ∀ x ∈ s.data, x.toNat < 256 := by simpa [latin1] using h
    exact h2 c hc
  · simp only [List.mem_singleton] at hd4
    rw [hd4]
    decide

theorem stringifyArr_strs_latin1 (xs : List JAny)
    (h : valueOk (.arr xs) = true) :
    ∀ d ∈ stringifyArr xs, d.toNat < 256 := by
  induction xs with
  | nil => intro d hd; simp [stringifyArr] at hd
  | cons x xs2 ih =>
    intro d hd
    obtain ⟨t, rfl⟩ := valueOk_arr_strs _ h x (List.mem_cons_self x xs2)
    obtain ⟨hlat, htail2⟩ : latin1 t = true ∧ ∀ x ∈ xs2,
        (match x with | JAny.str s => latin1 s | _ => false) = true := by
      simpa [valueOk] using h
    have htail : valueOk (JAny.arr xs2) = true := by
      simpa [valueOk] using htail2
    cases xs2 with
    | nil =>
      rw [show stringifyArr [JAny.str t] = stringifyStr t from by
        simp [stringifyArr, stringifyJ]] at hd
      exact stringifyStr_latin1 t hlat d hd
    | cons y ys =>
      rw [show stringifyArr (JAny.str t :: y :: ys)
          = stringifyStr t ++ ',' :: stringifyArr (y :: ys) from by
        simp [stringifyArr, stringifyJ]] at hd
      rcases List.mem_append.1 hd with hd2 | hd3
      · exact stringifyStr_latin1 t hlat d hd2
      · rcases List.mem_cons.1 hd3 with rfl | hd4
        · decide
        · exact ih htail d hd4

theorem stringifyJ_value_latin1 (v : JAny) (h : valueOk v = true) :
    ∀ d ∈ stringifyJ v, d.toNat < 256 := by
  intro d hd
  cases v with
  | str s =>
    rw [show stringifyJ (JAny.str s) = stringifyStr s from by simp [stringifyJ]] at hd
    exact stringifyStr_latin1 s (by simpa [valueOk] using h) d hd
  | bool b =>
    cases b
    · rw [show stringifyJ (JAny.bool false) = ['f', 'a', 'l', 's', 'e'] from by
        simp [stringifyJ]] at hd
      fin_cases hd <;> decide
    · rw [show stringifyJ (JAny.bool true) = ['t', 'r', 'u', 'e'] from by
        simp [stringifyJ]] at hd
      fin_cases hd <;> decide
  | num lexeme => simp [valueOk] at h
  | null => simp [valueOk] at h
  | obj entries => simp [valueOk] at h
  | arr xs =>
    rw [show stringifyJ (JAny.arr xs) = '[' :: stringifyArr xs ++ [']'] from by
      simp [stringifyJ]] at hd
    rcases List.mem_cons.1 hd with rfl | hd2
    · decide
    rcases List.mem_append.1 hd2 with hd3 | hd4
    · exact stringifyArr_strs_latin1 xs h d hd3
    · simp only [List.mem_singleton] at hd4
      rw [hd4]
      decide

theorem stringifyMembers_latin1 (l : Snapshot) (hok : snapshotOk l = true) :
    ∀ d ∈ stringifyMembers l, d.toNat < 256 := by
  induction l with
  | nil => intro d hd; simp [stringifyMembers] at hd
  | cons p l2 ih =>
    intro d hd
    obtain ⟨k, v⟩ := p
    obtain ⟨hokv, hkl, hok2⟩ := snapshotOk_head k v l2 hok
    cases l2 with
    | nil =>
      rw [show stringifyMembers [(k, v)] = stringifyStr k ++ ':' :: stringifyJ v
        from by simp [stringifyMembers]] at hd
      rcases List.mem_append.1 hd with hd2 | hd3
      · exact stringifyStr_latin1 k hkl d hd2
      · rcases List.mem_cons.1 hd3 with rfl | hd4
        · decide
        · exact stringifyJ_value_latin1 v hokv d hd4
    | cons p2 l3 =>
      rw [show stringifyMembers ((k, v) :: p2 :: l3)
          = stringifyStr k ++ ':' :: stringifyJ v ++
            ',' :: stringifyMembers (p2 :: l3) from by
        simp [stringifyMembers]] at hd
      rcases List.mem_append.1 hd with hd2 | hd5
      · rcases List.mem_append.1 hd2 with hd3 | hd4
        · exact stringifyStr_latin1 k hkl d hd3
        · rcases List.mem_cons.1 hd4 with rfl | hd6
          · decide
          · exact stringifyJ_value_latin1 v hokv d hd6
      · rcases List.mem_cons.1 hd5 with rfl | hd7
        · decide
        · exact ih hok2 d hd7

theorem stringifyJ_obj_latin1 (l : Snapshot) (hok : snapshotOk l = true) :
    (stringifyJ (.obj l)).all (fun c => c.toNat < 256) = true := by
  rw [List.all_eq_true]
  intro d hd
  rw [show stringifyJ (JAny.obj l)
      = lbrace :: stringifyMembers l ++ [rbrace] from by simp [stringifyJ]] at hd
  rcases List.mem_cons.1 hd with rfl | hd2
  · decide
  rcases List.mem_append.1 hd2 with hd3 | hd4
  · simpa using stringifyMembers_latin1 l hok d hd3
  · simp only [List.mem_singleton] at hd4
    rw [hd4]
    decide

theorem decChar_encChar : ∀ n, n < 64 → decChar (encChar n) = some n := by decide

theorem encChar_ne_pad : ∀ n, n < 64 → encChar n ≠ '=' := by decide

theorem encChar_mem_alpha : ∀ n, n < 64 → encChar n ∈ b64Alphabet := by decide

theorem stripEq_append (l1 l2 : List Char) (h : ∀ c ∈ l1, c ≠ '=') :
    stripEq (l1 ++ l2) = l1 ++ stripEq l2 := by
  induction l1 with
  | nil => simp
  | cons a t ih =>
    have ha : a ≠ '=' := h a (List.mem_cons_self a t)
    have ht := ih (fun c hc => h c (List.mem_cons_of_mem a hc))
    simp only [List.cons_append]
    rw [stripEq, ht]
    cases hcase : t ++ stripEq l2 with
    | nil => simp [ha]
    | cons x xs => rfl

theorem stripEq_subset : ∀ l : List Char, stripEq l ⊆ l := by
  intro l
  induction l with
  | nil => simp [stripEq]
  | cons c t ih =>
    rw [stripEq]
    cases hcase : stripEq t with
    | nil =>
      by_cases hc : c = '='
      · simp [hc]
      · simp [hc]
    | cons x xs =>
      intro y hy
      rcases List.mem_cons.1 hy with rfl | hy2
      · exact List.mem_cons_self y t
      · exact List.mem_cons_of_mem c (ih (hcase ▸ hy2))

theorem stripEq_map (f : Char → Char) (hf : f '=' = '=')
    (hf2 : ∀ c, f c = '=' → c = '=') :
    ∀ l : List Char, stripEq (l.map f) = (stripEq l).map f := by
  intro l
  induction l with
  | nil => rfl
  | cons c t ih =>
    simp only [List.map_cons]
    rw [stripEq, stripEq, ih]
    cases hcase : stripEq t with
    | nil =>
      simp only [List.map_nil]
      by_cases hc : c = '='
      · rw [hc, hf]
        simp
      · have hfc : f c ≠ '=' := fun hfcq => hc (hf2 c hfcq)
        simp [hc, hfc]
    | cons x xs =>
      simp only [List.map_cons]

theorem repad_append4 (c4 t : List Char) (h : c4.length = 4) :
    repad (c4 ++ t) = c4 ++ repad t := by
  unfold repad
  have hlen : (4 - (c4 ++ t).length % 4) % 4 = (4 - t.length % 4) % 4 := by
    simp only [List.length_append, h]
    omega
  rw [List.append_assoc, hlen]

theorem b64encode_mem : ∀ (bs : List Nat), (∀ b ∈ bs, b < 256) →
    ∀ c ∈ b64encode bs, c ∈ b64Alphabet ∨ c = '=' := by
  intro bs
  induction bs using b64encode.induct with
  | case1 =>
    intro _ c hc
    simp [b64encode] at hc
  | case2 b0 =>
    intro h c hc
    have hb0 : b0 < 256 := h b0 (by simp)
    rw [b64encode] at hc
    simp only [List.mem_cons, List.not_mem_nil, or_false] at hc
    rcases hc with rfl | rfl | rfl | rfl
    · exact Or.inl (encChar_mem_alpha _ (by omega))
    · exact Or.inl (encChar_mem_alpha _ (by omega))
    · exact Or.inr rfl
    · exact Or.inr rfl
  | case3 b0 b1 =>
    intro h c hc
    have hb0 : b0 < 256 := h b0 (by simp)
    have hb1 : b1 < 256 := h b1 (by simp)
    rw [b64encode] at hc
    simp only [List.mem_cons, List.not_mem_nil, or_false] at hc
    rcases hc with rfl | rfl | rfl | rfl
    · exact Or.inl (encChar_mem_alpha _ (by omega))
    · exact Or.inl (encChar_mem_alpha _ (by omega))
    · exact Or.inl (encChar_mem_alpha _ (by omega))
    · exact Or.inr rfl
  | case4 b0 b1 b2 rest ih =>
    intro h c hc
    have hb0 : b0 < 256 := h b0 (by simp)
    have hb1 : b1 < 256 := h b1 (by simp)
    have hb2 : b2 < 256 := h b2 (by simp)
    have hrest : ∀ b ∈ rest, b < 256 := fun b hb => h b (by simp [hb])
    rw [b64encode] at hc
    rcases List.mem_cons.1 hc with rfl | hc2
    · exact Or.inl (encChar_mem_alpha _ (by omega))
    rcases List.mem_cons.1 hc2 with rfl | hc3
    · exact Or.inl (encChar_mem_alpha _ (by omega))
    rcases List.mem_cons.1 hc3 with rfl | hc4
    · exact Or.inl (encChar_mem_alpha _ (by omega))
    rcases List.mem_cons.1 hc4 with rfl | hc5
    · exact Or.inl (encChar_mem_alpha _ (by omega))
    · exact ih hrest c hc5

theorem b64_roundtrip : ∀ (bs : List Nat), (∀ b ∈ bs, b < 256) →
    b64decode (repad (stripEq (b64encode bs))) = some bs := by
  intro bs
  induction bs using b64encode.induct with
  | case1 =>
    intro _
    simp [b64encode, stripEq, repad, b64decode]
  | case2 b0 =>
    intro h
    have hb0 : b0 < 256 := h b0 (by simp)
    have hd0 : b0 / 4 < 64 := by omega
    have hd1 : b0 % 4 * 16 < 64 := by omega
    have hstrip : stripEq (b64encode [b0])
        = [encChar (b0 / 4), encChar (b0 % 4 * 16)] := by
      rw [b64encode]
      simp [stripEq, encChar_ne_pad _ hd0, encChar_ne_pad _ hd1]
    rw [hstrip]
    rw [show repad [encChar (b0 / 4), encChar (b0 % 4 * 16)]
        = [encChar (b0 / 4), encChar (b0 % 4 * 16), '=', '='] from by
      simp [repad, List.replicate]]
    rw [b64decode]
    rw [decChar_encChar _ hd0, decChar_encChar _ hd1]
    simp only [Option.some_bind]
    simp
    omega
  | case3 b0 b1 =>
    intro h
    have hb0 : b0 < 256 := h b0 (by simp)
    have hb1 : b1 < 256 := h b1 (by simp)
    have hd0 : b0 / 4 < 64 := by omega
    have hd1 : b0 % 4 * 16 + b1 / 16 < 64 := by omega
    have hd2 : b1 % 16 * 4 < 64 := by omega
    have hstrip : stripEq (b64encode [b0, b1])
        = [encChar (b0 / 4), encChar (b0 % 4 * 16 + b1 / 16),
           encChar (b1 % 16 * 4)] := by
      rw [b64encode]
      simp [stripEq, encChar_ne_pad _ hd0, encChar_ne_pad _ hd1,
        encChar_ne_pad _ hd2]
    rw [hstrip]
    rw [show repad [encChar (b0 / 4), encChar (b0 % 4 * 16 + b1 / 16),
          encChar (b1 % 16 * 4)]
        = [encChar (b0 / 4), encChar (b0 % 4 * 16 + b1 / 16),
           encChar (b1 % 16 * 4), '='] from by
      simp [repad, List.replicate]]
    rw [b64decode]
    rw [decChar_encChar _ hd0, decChar_encChar _ hd1, decChar_encChar _ hd2]
    simp only [Option.some_bind]
    rw [if_neg (encChar_ne_pad _ hd2)]
    simp
    omega
  | case4 b0 b1 b2 rest ih =>
    intro h
    have hb0 : b0 < 256 := h b0 (by simp)
    have hb1 : b1 < 256 := h b1 (by simp)
    have hb2 : b2 < 256 := h b2 (by simp)
    have hrest : ∀ b ∈ rest, b < 256 := fun b hb => h b (by simp [hb])
    have hd0 : b0 / 4 < 64 := by omega
    have hd1 : b0 % 4 * 16 + b1 / 16 < 64 := by omega
    have hd2 : b1 % 16 * 4 + b2 / 64 < 64 := by omega
    have hd3 : b2 % 64 < 64 := by omega
    have hih := ih hrest
    rw [b64encode]
    rw [show encChar (b0 / 4) :: encChar (b0 % 4 * 16 + b1 / 16) ::
          encChar (b1 % 16 * 4 + b2 / 64) :: encChar (b2 % 64) :: b64encode rest
        = [encChar (b0 / 4), encChar (b0 % 4 * 16 + b1 / 16),
           encChar (b1 % 16 * 4 + b2 / 64), encChar (b2 % 64)]
          ++ b64encode rest from rfl]
    rw [stripEq_append _ _ (by
      intro c hc
      simp only [List.mem_cons, List.not_mem_nil, or_false] at hc
      rcases hc with rfl | rfl | rfl | rfl
      · exact encChar_ne_pad _ hd0
      · exact encChar_ne_pad _ hd1
      · exact encChar_ne_pad _ hd2
      · exact encChar_ne_pad _ hd3)]
    rw [repad_append4 _ _ (by simp)]
    rw [show [encChar (b0 / 4), encChar (b0 % 4 * 16 + b1 / 16),
          encChar (b1 % 16 * 4 + b2 / 64), encChar (b2 % 64)]
          ++ repad (stripEq (b64encode rest))
        = encChar (b0 / 4) :: encChar (b0 % 4 * 16 + b1 / 16) ::
          encChar (b1 % 16 * 4 + b2 / 64) :: encChar (b2 % 64) ::
          repad (stripEq (b64encode rest)) from rfl]
    rw [b64decode]
    rw [decChar_encChar _ hd0, decChar_encChar _ hd1, decChar_encChar _ hd2,
      decChar_encChar _ hd3]
    simp only [Option.some_bind]
    rw [if_neg (encChar_ne_pad _ hd2), if_neg (encChar_ne_pad _ hd3)]
    rw [hih]
    simp
    omega

theorem sigma_pad_only : ∀ c, subSlash (subPlus c) = '=' → c = '=' := by
  intro c hc
  unfold subPlus subSlash at hc
  by_cases h1 : c = '+'
  · rw [if_pos h1] at hc
    simp at hc
  · rw [if_neg h1] at hc
    by_cases h2 : c = '/'
    · rw [if_pos h2] at hc
      simp at hc
    · rw [if_neg h2] at hc
      exact hc

theorem upsilon_pad_only : ∀ c, unsubSlash (unsubPlus c) = '=' → c = '=' := by
  intro c hc
  unfold unsubPlus unsubSlash at hc
  by_cases h1 : c = '-'
  · rw [if_pos h1] at hc
    simp at hc
  · rw [if_neg h1] at hc
    by_cases h2 : c = '_'
    · rw [if_pos h2] at hc
      simp at hc
    · rw [if_neg h2] at hc
      exact hc

theorem unsub_sub_alpha : ∀ c ∈ b64Alphabet,
    unsubSlash (unsubPlus (subSlash (subPlus c))) = c := by decide

theorem subst_roundtrip (l : List Char) (h : ∀ c ∈ l, c ∈ b64Alphabet ∨ c = '=') :
    ((stripEq ((l.map subPlus).map subSlash)).map unsubPlus).map unsubSlash
      = stripEq l := by
  rw [List.map_map]
  rw [List.map_map]
  rw [stripEq_map (subSlash ∘ subPlus) (by decide)
    (fun c hc => sigma_pad_only c hc) l]
  rw [List.map_map]
  have hid : ∀ c ∈ stripEq l,
      ((unsubSlash ∘ unsubPlus) ∘ subSlash ∘ subPlus) c = c := by
    intro c hc
    rcases h c (stripEq_subset l hc) with hm | rfl
    · exact unsub_sub_alpha c hm
    · decide
  rw [List.map_congr_left hid]
  simp

theorem map_ofNat_toNat (cs : List Char) :
    (cs.map Char.toNat).map Char.ofNat = cs := by
  rw [List.map_map]
  have hid : ∀ c ∈ cs, (Char.ofNat ∘ Char.toNat) c = id c :=
    fun c _ => Char.ofNat_toNat c
  rw [List.map_congr_left hid, List.map_id]

/-- Witness for C2's amended theorem: a certification date one day before
today survives serialization with its raw value. -/
theorem serialize_certDate_never_today_witness :
    ∃ c, c ∈ [(⟨"certificationDate", "date", "INPUT", "2026-01-01", false,
        false⟩ : Control)] ∧
      c.name = "certificationDate" ∧ JAny.str "2026-01-01" = .str c.value ∧
      c.value ≠ "" ∧ c.value ≠ "2026-01-02" :=
  serialize_certDate_never_today _ ⟨false, true, ""⟩ "2026-01-02" true
    (by
      intro c hc hn
      rcases List.mem_singleton.1 hc with rfl
      rfl)
    (JAny.str "2026-01-01")
    (by
      rw [show serializeForm
          [⟨"certificationDate", "date", "INPUT", "2026-01-01", false, false⟩]
          ⟨false, true, ""⟩ "2026-01-02" true
          = [("certificationDate", JAny.str "2026-01-01")] from rfl]
      exact List.mem_singleton.2 rfl)

/-- C1 (amended): the round-trip law holds for every snapshot whose keys
and string contents are Latin-1 (code points below 256) — not for all
value-typed snapshots, since `btoa` throws on anything above 255.  Under
that restriction decoding the encoded fragment recovers exactly the
snapshot object: `JSON.parse(atob(repad(unsubstitute(frag))))` inverts
`substitute(stripPadding(btoa(JSON.stringify(data))))`. -/
theorem fragment_roundtrip (data : Snapshot) (h : snapshotOk data = true) :
    (encodeFragment data).bind decodeFragment = some (.obj data) := by
  have hlat := stringifyJ_obj_latin1 data h
  have hbytes : ∀ b ∈ (stringifyJ (.obj data)).map Char.toNat, b < 256 := by
    intro b hb
    rcases List.mem_map.1 hb with ⟨c, hc, rfl⟩
    have hc2 := List.all_eq_true.1 hlat c hc
    simpa using hc2
  have hbtoa : btoaJs (stringifyJ (.obj data))
      = some (b64encode ((stringifyJ (.obj data)).map Char.toNat)) := by
    unfold btoaJs
    rw [if_pos hlat]
  have halpha : ∀ c ∈ b64encode ((stringifyJ (.obj data)).map Char.toNat),
      c ∈ b64Alphabet ∨ c = '=' := b64encode_mem _ hbytes
  have hsub := subst_roundtrip _ halpha
  have hdec := b64_roundtrip _ hbytes
  rw [show encodeFragment data
      = some (stripEq
          (((b64encode ((stringifyJ (.obj data)).map Char.toNat)).map
            subPlus).map subSlash)) from by
    rw [encodeFragment, hbtoa]
    rfl]
  rw [Option.some_bind]
  simp only [decodeFragment, atobJs]
  rw [hsub, hdec]
  change jsonParse
      (List.map Char.ofNat
        (List.map Char.toNat (stringifyJ (JAny.obj data))))
    = some (JAny.obj data)
  rw [map_ofNat_toNat]
  simp only [jsonParse]
  have hlen : memFuel data ≤ (stringifyJ (.obj data)).length := by
    have hm := memFuel_le_length data h
    rw [show stringifyJ (.obj data)
        = lbrace :: stringifyMembers data ++ [rbrace] from rfl]
    simp only [List.cons_append, List.length_cons, List.length_append,
      List.length_singleton]
    omega
  rw [show (stringifyJ (.obj data)).length + 1
      = memFuel data + ((stringifyJ (.obj data)).length - memFuel data) + 1
      from by omega]
  have hpv := parseValue_obj data h
    ((stringifyJ (.obj data)).length - memFuel data) []
  rw [List.append_nil] at hpv
  rw [hpv]
  simp [skipWs]

/-- Witness for C1: a one-key snapshot with an uppercase Latin-1 value
round-trips through the fragment codec. -/
theorem fragment_roundtrip_witness :
    snapshotOk [("q1_formType", JAny.str "ATF")] = true ∧
    (encodeFragment [("q1_formType", JAny.str "ATF")]).bind decodeFragment
      = some (.obj [("q1_formType", JAny.str "ATF")]) :=
  ⟨by decide, fragment_roundtrip [("q1_formType", JAny.str "ATF")] (by decide)⟩

/-- C1 counterexample: a snapshot within the data model — `"Ω"` is an
uppercase string, fixed by the code's own `toUpperCase` — defeats the
unconditional round-trip law: its code point 937 exceeds 255, `btoa`
throws `InvalidCharacterError`, and `encodeFragment` yields no fragment
at all. -/
theorem fragment_roundtrip_unicode_cex :
    jsUpper "Ω" = "Ω" ∧
    encodeFragment [("q2_fullName", JAny.str "Ω")] = none :=
  ⟨rfl, rfl⟩

end ATF
